import Mathlib

/-!
Verification of the packed fixed-length nucleotide sequence type `Seq<size_, T>`
from `src/assembler/src/include/sequence/seq.hpp`.

Embedding conventions.
The C++ type is parameterized by a length `size_` and an unsigned word type `T`.
We parameterize by `size_ : Nat` and by `t : Nat` where `t` is the source's
`TNuclBits` (the source requires `TNucl` to be a power of two, so the word
width is determined by `t`): `TNucl = 2^t` nucleotides per word and
`TBits = 2 * TNucl = 2^(t+1)` bits per word.  `T = char` is `t = 2`,
`T = u_int64_t` (the default) is `t = 5`.
A storage word of type `T` is modelled as a `Nat` smaller than `2^TBits`;
assignment to a `T`-typed cell truncates, which we model with `truncT`.
The backing `std::array<T, DataSize>` is modelled as a `List Nat` of length
`DataSize`.
-/

namespace SeqModel

/-- Number of nucleotides stored in one word `T` (source: `TNucl = TBits >> 1`;
the source requires this to be a power of two, and `t` is `TNuclBits = log2 TNucl`). -/
def TNucl (t : Nat) : Nat := 2 ^ t

/-- Number of bits of the word type `T` (source: `TBits = sizeof(T) << 3 = 2 * TNucl`). -/
def TBits (t : Nat) : Nat := 2 * TNucl t

/-- Number of words required to store the whole sequence
(source: `DataSize = (size_ + TNucl - 1) >> TNuclBits`). -/
def DataSize (size_ t : Nat) : Nat := (size_ + TNucl t - 1) >>> t

/-- Number of nucleotides in the last storage word
(source: `NuclsRemain = size_ & (TNucl - 1)`). -/
def NuclsRemain (size_ t : Nat) : Nat := size_ &&& (TNucl t - 1)

/-- Mask used to clear the padding of the last storage word
(source: `MaskForLastBucket = (((T) 1) << (NuclsRemain << 1)) - 1`). -/
def MaskForLastBucket (size_ t : Nat) : Nat := (1 <<< (NuclsRemain size_ t <<< 1)) - 1

/-- Prime seed of the hash function (source: `PrimeNum = 239`). -/
def PrimeNum : Nat := 239

/-- Truncation of a value assigned to a cell of word type `T`. -/
def truncT (t : Nat) (x : Nat) : Nat := x % 2 ^ TBits t

/-! Base-4 digit theory.  `dig w s` is the `s`-th 2-bit group of the word `w`,
extracted the way the source does it (shift right by `2*s`, mask with 3). -/

/-- The 2-bit group of a word at slot `s`. -/
def dig (w s : Nat) : Nat := (w >>> (2 * s)) &&& 3

/-! Alphabet codec.  The file `sequence/nucl.hpp` is not part of the provided
sources, so the codec is modelled from the spec.  Characters are modelled as
byte values (`'A' = 65`, `'C' = 67`, `'G' = 71`, `'T' = 84`). -/

/-- Modelled from the spec: `is_nucl` from the missing `sequence/nucl.hpp`, the
character→is-valid-symbol predicate for the alphabet {A,C,G,T}. -/
def is_nucl (c : Nat) : Bool := c = 65 || c = 67 || c = 71 || c = 84

/-- Modelled from the spec: `is_dignucl` from the missing `sequence/nucl.hpp`,
acceptance of raw 0..3 codes. -/
def is_dignucl (c : Nat) : Bool := c < 4

/-- Modelled from the spec: `dignucl` from the missing `sequence/nucl.hpp`, the
character→2-bit-code mapping (A↦0, C↦1, G↦2, T↦3); total, no abort (the source
comments out validity checks "for performance"). -/
def dignucl (c : Nat) : Nat :=
  if c = 65 then 0 else if c = 67 then 1 else if c = 71 then 2 else
  if c = 84 then 3 else 0

/-- Modelled from the spec: `nucl` from the missing `sequence/nucl.hpp`, the
2-bit-code→character mapping (0↦A, 1↦C, 2↦G, 3↦T). -/
def nucl (c : Nat) : Nat :=
  if c = 0 then 65 else if c = 1 then 67 else if c = 2 then 71 else 84

/-- Modelled from the spec: `complement` from the missing `sequence/nucl.hpp`,
the alphabet complement on 2-bit codes (A↔T, C↔G, i.e. 0↔3, 1↔2). -/
def complement (c : Nat) : Nat := c ^^^ 3

/-! The sequence data model.  The backing `std::array<T, DataSize>` is a
`List Nat`; all member operations are functions over it. -/

/-- Symbol access (source: `operator[]`,
`(data_[i >> TNuclBits] >> ((i & (TNucl - 1)) << 1)) & 3`). -/
def getNucl (t : Nat) (cells : List Nat) (i : Nat) : Nat :=
  (cells.getD (i >>> t) 0 >>> ((i &&& (TNucl t - 1)) <<< 1)) &&& 3

/-- Well-formedness of the backing storage: `DataSize` cells, each a value of
the word type `T`. -/
def wf (size_ t : Nat) (cells : List Nat) : Prop :=
  cells.length = DataSize size_ t ∧ ∀ x ∈ cells, x < 2 ^ TBits t

/-- The padding invariant stated by the source (`@invariant all nucleotides
>= size_ are A's`): every 2-bit group at logical position ≥ `size_` within the
storage is zero. -/
def padInv (size_ t : Nat) (cells : List Nat) : Prop :=
  ∀ p < DataSize size_ t * TNucl t, size_ ≤ p → getNucl t cells p = 0

/-- Accumulation loop shared by `init` and the generic constructor: packs a
list of 2-bit codes into words, low slots first, flushing a word each time the
bit counter `cnt` reaches `TBits`, and flushing the final partial word when
`cnt != 0` after the loop. -/
def packRec (t : Nat) : List Nat → Nat → Nat → List Nat
  | [], data, cnt => if cnt ≠ 0 then [data] else []
  | c :: rest, data, cnt =>
    let data2 := truncT t (data ||| c <<< cnt)
    let cnt2 := cnt + 2
    if cnt2 = TBits t then data2 :: packRec t rest 0 0 else packRec t rest data2 cnt2

/-- Source: `init(const char* s)`.  The C string is modelled as the byte
content of memory, `s : Nat → Nat`; the final `VERIFY(*s == 0)` (`s` has been
advanced `size_` times) aborts unless byte `size_` is the terminator, modelled
as `none`. -/
def init (size_ t : Nat) (s : Nat → Nat) : Option (List Nat) :=
  if s size_ = 0 then
    some (packRec t ((List.range size_).map fun pos => dignucl (s pos)) 0 0)
  else none

/-- Source: `Seq(const char* s)`, which just calls `init`. -/
def seqFromCString (size_ t : Nat) (s : Nat → Nat) : Option (List Nat) :=
  init size_ t s

/-- Source: default constructor `Seq()`, fills the storage with zeros. -/
def seqDefault (size_ t : Nat) : List Nat := List.replicate (DataSize size_ t) 0

/-- Source: `GetZero()` = default construction followed by `SetZero()`, which
fills every cell with `(T)(-1)`, the all-ones word. -/
def GetZero (size_ t : Nat) : List Nat :=
  List.replicate (DataSize size_ t) (2 ^ TBits t - 1)

/-- Source: `Seq(T* data_array)`, the constructor from a pre-packed buffer.
It copies cells `0 .. DataSize-2` and, only when `NuclsRemain != 0`, writes the
masked last cell; when `NuclsRemain = 0` the last cell of the freshly
constructed `std::array` is left unassigned, which we model with the
indeterminate prior cell content `junk`. -/
def seqFromArray (size_ t : Nat) (junk : Nat) (arr : Nat → Nat) : List Nat :=
  (List.range (DataSize size_ t)).map fun i =>
    if i < DataSize size_ t - 1 then arr i
    else if NuclsRemain size_ t ≠ 0 then arr i &&& MaskForLastBucket size_ t
    else junk

/-- Source: the generic constructor `Seq(const S& s, offset, number_to_read)`.
The indexable source is `s : Nat → Nat` (byte values); the leading
`VERIFY(is_dignucl(s[0]) || is_nucl(s[0]))` is modelled as `none` on failure.
It sniffs digit-vs-character mode from `s[0]`, packs `number_to_read` symbols
starting at `offset` with the same accumulation loop as `init`, and zero-fills
the remaining cells. -/
def seqFromIndexable (size_ t : Nat) (s : Nat → Nat) (offset number_to_read : Nat) :
    Option (List Nat) :=
  if is_dignucl (s 0) || is_nucl (s 0) then
    let digit_str := is_dignucl (s 0)
    let codes := (List.range number_to_read).map fun i =>
      if digit_str then s (offset + i) else dignucl (s (offset + i))
    let packed := packRec t codes 0 0
    some (packed ++ List.replicate (DataSize size_ t - packed.length) 0)
  else none

/-- Source: the private `set(i, c)`: overwrite the 2-bit group of position `i`
(`~((T)3 << sh)` is the truncated complement, i.e. all-ones xor the mask). -/
def setNucl (t : Nat) (cells : List Nat) (i c : Nat) : List Nat :=
  cells.set (i >>> t)
    (truncT t ((cells.getD (i >>> t) 0 &&&
        ((2 ^ TBits t - 1) ^^^ (3 <<< ((i &&& (TNucl t - 1)) <<< 1)))) |||
      c <<< ((i &&& (TNucl t - 1)) <<< 1)))

/-- Source: `operator!` (reverse complement): copy, then for each
`i < size_/2` swap positions `i` and `size_-1-i` with complemented values, and
complement the middle position when `size_` is odd. -/
def revCompl (size_ t : Nat) (cells : List Nat) : List Nat :=
  let swapped := (List.range (size_ >>> 1)).foldl
    (fun res i =>
      let front := complement (getNucl t res i)
      let e := complement (getNucl t res (size_ - 1 - i))
      setNucl t (setNucl t res i e) (size_ - 1 - i) front)
    cells
  if size_ &&& 1 = 1 then
    setNucl t swapped (size_ >>> 1) (complement (getNucl t swapped (size_ >>> 1)))
  else swapped

/-- Source: `operator<<(char c)`: convert `c` when it is a character, then
shift every 2-bit group one position down, injecting `c` at the top of the last
cell's valid window.  The descending carry loop of the source is rendered in
closed form: the carry into cell `i` is the low 2 bits of the old cell `i+1`,
and the last cell receives `(data >> 2) | (c << lastnuclshift_)` with
`lastnuclshift_ = ((size_ + TNucl - 1) & (TNucl - 1)) << 1`. -/
def shiftLeftOp (size_ t : Nat) (cells : List Nat) (ch : Nat) : List Nat :=
  let c := if is_nucl ch then dignucl ch else ch
  if DataSize size_ t ≠ 0 then
    let lastnuclshift_ := ((size_ + TNucl t - 1) &&& (TNucl t - 1)) <<< 1
    (List.range (DataSize size_ t)).map fun i =>
      if i = DataSize size_ t - 1 then
        truncT t ((cells.getD i 0 >>> 2) ||| c <<< lastnuclshift_)
      else
        truncT t ((cells.getD i 0 >>> 2) ||| (cells.getD (i + 1) 0 &&& 3) <<< (TBits t - 2))
  else cells

/-- Source: `operator>>(char c)`: convert `c` when it is a character,
`VERIFY(is_dignucl(c))` (modelled as `none` on failure), then shift every
2-bit group one position up with an ascending carry loop (the carry into cell
`i` is the top 2-bit group of the old cell `i-1`, and `c` enters cell 0), and
re-mask the last cell when `size_` is not a multiple of `TNucl`. -/
def shiftRightOp (size_ t : Nat) (cells : List Nat) (ch : Nat) : Option (List Nat) :=
  let c := if is_nucl ch then dignucl ch else ch
  if is_dignucl c then
    let shifted := (List.range (DataSize size_ t)).map fun i =>
      truncT t (cells.getD i 0 <<< 2) |||
        (if i = 0 then c else (cells.getD (i - 1) 0 >>> (TBits t - 2)) &&& 3)
    some (if size_ &&& (TNucl t - 1) ≠ 0 then
      shifted.set (DataSize size_ t - 1)
        (shifted.getD (DataSize size_ t - 1) 0 &&&
          ((1 <<< ((size_ &&& (TNucl t - 1)) <<< 1)) - 1))
    else shifted)
  else none

/-- Source: `str()`: decode each position with `nucl`. -/
def str (size_ t : Nat) (cells : List Nat) : List Nat :=
  (List.range size_).map fun i => nucl (getNucl t cells i)

/-- Wraparound subtraction of the 64-bit unsigned `size_t`. -/
def sub64 (a b : Nat) : Nat := (a + (2 ^ 64 - b % 2 ^ 64)) % 2 ^ 64

/-- Source: `GetHash()`: `hash = PrimeNum`, then
`hash = ((hash << 5) - hash) + data_[i]` over all cells, in `size_t`
(64-bit wraparound) arithmetic. -/
def GetHash (cells : List Nat) : Nat :=
  cells.foldl (fun hash w => (sub64 ((hash <<< 5) % 2 ^ 64) hash + w) % 2 ^ 64) PrimeNum

/-- Source: the nested functor `struct hash`, whose body repeats `GetHash`
verbatim. -/
def hashFunctor (cells : List Nat) : Nat :=
  cells.foldl (fun hash w => (sub64 ((hash <<< 5) % 2 ^ 64) hash + w) % 2 ^ 64) PrimeNum

/-! Raw byte layout.  `memcmp`, `file.read` and `file.write` act on the raw
bytes of the storage array; on the (little-endian) host a word of `T` occupies
`sizeof(T) = TBits/8` bytes, least significant byte first. -/

/-- Bytes per word (`sizeof(T)`). -/
def sizeofT (t : Nat) : Nat := TBits t / 8

/-- Little-endian byte decomposition of one storage word. -/
def bytesOfWord (t : Nat) (w : Nat) : List Nat :=
  (List.range (sizeofT t)).map fun k => w / 256 ^ k % 256

/-- The raw byte image of the storage array (`sizeof(T) * DataSize` bytes). -/
def seqBytes (t : Nat) (cells : List Nat) : List Nat :=
  cells.flatMap (bytesOfWord t)

/-- Source: `operator==`, `0 == memcmp(data_.data(), s.data_.data(),
sizeof(T) * DataSize)`: equality of the raw byte images. -/
def seqEqOp (t : Nat) (l r : List Nat) : Bool := seqBytes t l == seqBytes t r

/-- Source: the nested functor `struct equal_to`, whose body repeats the
`memcmp` of `operator==` verbatim. -/
def equalToFunctor (t : Nat) (l r : List Nat) : Bool := seqBytes t l == seqBytes t r

/-- An input byte stream: the remaining bytes and the failure flag
(`failbit`/`badbit`). -/
structure IStream where
  bytes : List Nat
  failed : Bool

/-- An output byte stream: the bytes written so far and the failure flag. -/
structure OStream where
  out : List Nat
  failed : Bool

/-- Recomposition of a word from its little-endian bytes (the effect of
`istream::read` filling the word array through its byte image). -/
def wordOfBytes : List Nat → Nat
  | [] => 0
  | b :: rest => b + 256 * wordOfBytes rest

/-- The word array whose byte image is the first `n * sizeof(T)` of `bs`. -/
def wordsOfBytes (t : Nat) (bs : List Nat) (n : Nat) : List Nat :=
  (List.range n).map fun j => wordOfBytes ((bs.drop (j * sizeofT t)).take (sizeofT t))

/-- Source: `BinRead(istream&, Seq*)`: `file.read((char*) seq->data_.data(),
sizeof(T) * DataSize); return !file.fail();`.  A read on an already-failed
stream is a no-op; a short read extracts all available bytes (partially
overwriting the buffer) and sets the fail state; otherwise the storage is
overwritten with the next `sizeof(T) * DataSize` stream bytes.  Returns the
new stream, the buffer contents, and the boolean result. -/
def BinRead (size_ t : Nat) (f : IStream) (q : List Nat) : IStream × List Nat × Bool :=
  let n := sizeofT t * DataSize size_ t
  if f.failed then (f, q, false)
  else if f.bytes.length < n then
    (⟨[], true⟩,
      wordsOfBytes t (f.bytes ++ (seqBytes t q).drop f.bytes.length) (DataSize size_ t),
      false)
  else
    (⟨f.bytes.drop n, false⟩, wordsOfBytes t f.bytes (DataSize size_ t), true)

/-- Source: `BinWrite(ostream&, const Seq&)`: `file.write((const char*)
seq.data_.data(), sizeof(T) * DataSize); return !file.fail();`.  A write on an
already-failed stream is a no-op; otherwise the raw byte image is appended. -/
def BinWrite (size_ t : Nat) (f : OStream) (cells : List Nat) : OStream × Bool :=
  if f.failed then (f, false)
  else (⟨f.out ++ seqBytes t cells, false⟩, true)

instance (size_ t : Nat) (cells : List Nat) : Decidable (wf size_ t cells) := by
  unfold wf; infer_instance

instance (size_ t : Nat) (cells : List Nat) : Decidable (padInv size_ t cells) := by
  unfold padInv; infer_instance

/-! Basic facts about the storage-geometry constants and 2-bit groups. -/

theorem TNucl_pos (t : Nat) : 0 < TNucl t := Nat.pos_pow_of_pos t (by decide)

theorem two_pow_TBits (t : Nat) : 2 ^ TBits t = 4 ^ TNucl t := by
  rw [TBits, Nat.pow_mul]

theorem DataSize_eq_div (size_ t : Nat) :
    DataSize size_ t = (size_ + TNucl t - 1) / TNucl t := by
  rw [DataSize, Nat.shiftRight_eq_div_pow]; rfl

theorem NuclsRemain_eq_mod (size_ t : Nat) : NuclsRemain size_ t = size_ % TNucl t := by
  rw [NuclsRemain, TNucl, Nat.and_pow_two_sub_one_eq_mod]

theorem truncT_eq_of_lt {t x : Nat} (h : x < 2 ^ TBits t) : truncT t x = x :=
  Nat.mod_eq_of_lt h


theorem dig_eq_div_mod (w s : Nat) : dig w s = w / 4 ^ s % 4 := by
  have h3 : (3 : Nat) = 2 ^ 2 - 1 := by decide
  rw [dig, h3, Nat.and_pow_two_sub_one_eq_mod, Nat.shiftRight_eq_div_pow,
    Nat.pow_mul 2 2 s]

theorem dig_lt (w s : Nat) : dig w s < 4 := by
  rw [dig_eq_div_mod]; exact Nat.mod_lt _ (by decide)

theorem dig_eq_zero_of_lt {w s : Nat} (h : w < 4 ^ s) : dig w s = 0 := by
  rw [dig_eq_div_mod, Nat.div_eq_of_lt h]

theorem dig_zero (s : Nat) : dig 0 s = 0 := by
  rw [dig_eq_div_mod, Nat.zero_div]

theorem dig_small {c : Nat} (h : c < 4) : dig c 0 = c := by
  rw [dig_eq_div_mod, pow_zero, Nat.div_one, Nat.mod_eq_of_lt h]

theorem dig_lor (a b s : Nat) : dig (a ||| b) s = dig a s ||| dig b s := by
  apply Nat.eq_of_testBit_eq
  intro i
  simp [dig, Nat.testBit_shiftRight, Bool.and_or_distrib_right]

theorem dig_land (a b s : Nat) : dig (a &&& b) s = dig a s &&& dig b s := by
  apply Nat.eq_of_testBit_eq
  intro i
  simp [dig, Nat.testBit_shiftRight]
  cases Nat.testBit 3 i <;> simp

theorem dig_xor (a b s : Nat) : dig (a ^^^ b) s = dig a s ^^^ dig b s := by
  apply Nat.eq_of_testBit_eq
  intro i
  simp [dig, Nat.testBit_shiftRight, Bool.and_xor_distrib_right]

theorem dig_shiftRight_two (w s : Nat) : dig (w >>> 2) s = dig w (s + 1) := by
  rw [dig_eq_div_mod, dig_eq_div_mod, Nat.shiftRight_eq_div_pow,
    Nat.div_div_eq_div_mul]
  have h : (2 : Nat) ^ 2 * 4 ^ s = 4 ^ (s + 1) := by rw [pow_succ]; ring
  rw [h]

theorem dig_shiftLeft_ge {c k s : Nat} (h : k ≤ s) :
    dig (c <<< (2 * k)) s = dig c (s - k) := by
  rw [dig_eq_div_mod, dig_eq_div_mod, Nat.shiftLeft_eq, Nat.pow_mul 2 2 k]
  have h4 : (2 : Nat) ^ 2 = 4 := by decide
  rw [h4]
  have hs : 4 ^ s = 4 ^ k * 4 ^ (s - k) := by
    rw [← pow_add]
    congr 1
    omega
  rw [hs, ← Nat.div_div_eq_div_mul, Nat.mul_div_cancel _ (Nat.pos_pow_of_pos k (by decide))]

theorem dig_shiftLeft_lt {c k s : Nat} (h : s < k) : dig (c <<< (2 * k)) s = 0 := by
  rw [dig_eq_div_mod, Nat.shiftLeft_eq, Nat.pow_mul 2 2 k]
  have h4 : (2 : Nat) ^ 2 = 4 := by decide
  rw [h4]
  have hk : (4 : Nat) ^ k = 4 ^ (k - s - 1) * 4 * 4 ^ s := by
    rw [Nat.mul_assoc, ← pow_succ', ← pow_add]
    congr 1
    omega
  rw [hk, ← Nat.mul_assoc, Nat.mul_div_cancel _ (Nat.pos_pow_of_pos s (by decide)),
    ← Nat.mul_assoc, Nat.mul_mod_left]

theorem dig_div_four (w s : Nat) : dig (w / 4) s = dig w (s + 1) := by
  rw [dig_eq_div_mod, dig_eq_div_mod, Nat.div_div_eq_div_mul, pow_succ,
    Nat.mul_comm (4 ^ s) 4]

/-- A word smaller than `4^m` is determined by its `m` low 2-bit groups. -/
theorem eq_of_dig_eq : ∀ (m : Nat) {w w' : Nat}, w < 4 ^ m → w' < 4 ^ m →
    (∀ s, s < m → dig w s = dig w' s) → w = w' := by
  intro m
  induction m with
  | zero =>
    intro w w' hw hw' _
    simp [pow_zero] at hw hw'
    omega
  | succ m ih =>
    intro w w' hw hw' hdig
    have h0 : w % 4 = w' % 4 := by
      have := hdig 0 (Nat.succ_pos m)
      rwa [dig_eq_div_mod, dig_eq_div_mod, pow_zero, Nat.div_one, Nat.div_one] at this
    have hp : (4 : Nat) ^ (m + 1) = 4 * 4 ^ m := by rw [pow_succ, Nat.mul_comm]
    have hq : w / 4 = w' / 4 := by
      apply ih
      · exact Nat.div_lt_of_lt_mul (by omega)
      · exact Nat.div_lt_of_lt_mul (by omega)
      · intro s hs
        rw [dig_div_four, dig_div_four]
        exact hdig (s + 1) (Nat.succ_lt_succ hs)
    omega


/-! Geometry of positions, cells and slots. -/

theorem TBits_pos (t : Nat) : 0 < TBits t := by
  rw [TBits]; have := TNucl_pos t; omega

theorem four_pow_eq (k : Nat) : (4 : Nat) ^ k = 2 ^ (2 * k) := by
  rw [Nat.pow_mul]

theorem size_le_DataSize_mul (size_ t : Nat) : size_ ≤ DataSize size_ t * TNucl t := by
  rw [DataSize_eq_div, Nat.mul_comm]
  have hT := TNucl_pos t
  have h := Nat.div_add_mod (size_ + TNucl t - 1) (TNucl t)
  have hm : (size_ + TNucl t - 1) % TNucl t < TNucl t := Nat.mod_lt _ hT
  omega

theorem DataSize_mul_le (size_ t : Nat) :
    DataSize size_ t * TNucl t ≤ size_ + TNucl t - 1 := by
  rw [DataSize_eq_div]
  exact Nat.div_mul_le_self _ _

theorem div_lt_DataSize {size_ t i : Nat} (h : i < size_) :
    i / TNucl t < DataSize size_ t := by
  apply Nat.div_lt_of_lt_mul
  calc i < size_ := h
    _ ≤ DataSize size_ t * TNucl t := size_le_DataSize_mul size_ t
    _ = TNucl t * DataSize size_ t := Nat.mul_comm _ _

theorem DataSize_succ {size_ : Nat} (t : Nat) (h : 0 < size_) :
    DataSize size_ t = (size_ - 1) / TNucl t + 1 := by
  rw [DataSize_eq_div]
  have hT := TNucl_pos t
  have he : size_ + TNucl t - 1 = (size_ - 1) + TNucl t := by omega
  rw [he, Nat.add_div_right _ hT]

theorem DataSize_pos {size_ : Nat} (t : Nat) (h : 0 < size_) : 0 < DataSize size_ t := by
  rw [DataSize_succ t h]
  exact Nat.succ_pos _

theorem last_cell_eq {size_ : Nat} (t : Nat) (h : 0 < size_) :
    (size_ - 1) / TNucl t = DataSize size_ t - 1 := by
  rw [DataSize_succ t h, Nat.succ_sub_one]

theorem lastnuclshift_eq {size_ : Nat} (t : Nat) (h : 0 < size_) :
    ((size_ + TNucl t - 1) &&& (TNucl t - 1)) <<< 1 = 2 * ((size_ - 1) % TNucl t) := by
  have hT := TNucl_pos t
  rw [TNucl] at hT ⊢
  have he : size_ + 2 ^ t - 1 = size_ - 1 + 2 ^ t := by omega
  rw [he, Nat.and_pow_two_sub_one_eq_mod, Nat.add_mod_right, Nat.shiftLeft_eq, pow_one,
    Nat.mul_comm]

theorem pad_pos_cell {size_ t p : Nat} (h0 : 0 < size_) (h1 : size_ ≤ p)
    (h2 : p < DataSize size_ t * TNucl t) :
    p / TNucl t = DataSize size_ t - 1 ∧ (size_ - 1) % TNucl t < p % TNucl t := by
  have hT := TNucl_pos t
  have hdiv : p / TNucl t = DataSize size_ t - 1 := by
    have hge : DataSize size_ t - 1 ≤ p / TNucl t := by
      rw [← last_cell_eq t h0]
      exact Nat.div_le_div_right (by omega)
    have hlt : p / TNucl t < DataSize size_ t :=
      Nat.div_lt_of_lt_mul (by rw [Nat.mul_comm]; exact h2)
    omega
  refine ⟨hdiv, ?_⟩
  have e1 := Nat.div_add_mod p (TNucl t)
  have e2 := Nat.div_add_mod (size_ - 1) (TNucl t)
  rw [hdiv] at e1
  rw [last_cell_eq t h0] at e2
  omega

theorem mul_add_div_TNucl (t j s : Nat) (hs : s < TNucl t) :
    (TNucl t * j + s) / TNucl t = j := by
  rw [Nat.mul_add_div (TNucl_pos t), Nat.div_eq_of_lt hs, Nat.add_zero]

theorem mul_add_mod_TNucl (t j s : Nat) (hs : s < TNucl t) :
    (TNucl t * j + s) % TNucl t = s := by
  rw [Nat.mul_add_mod, Nat.mod_eq_of_lt hs]

theorem getNucl_eq_dig (t : Nat) (cells : List Nat) (i : Nat) :
    getNucl t cells i = dig (cells.getD (i / TNucl t) 0) (i % TNucl t) := by
  have h1 : i >>> t = i / TNucl t := by rw [Nat.shiftRight_eq_div_pow]; rfl
  have h2 : i &&& (TNucl t - 1) = i % TNucl t := by
    rw [TNucl, Nat.and_pow_two_sub_one_eq_mod]
  have h3 : (i % TNucl t) <<< 1 = 2 * (i % TNucl t) := by
    rw [Nat.shiftLeft_eq, pow_one, Nat.mul_comm]
  rw [getNucl, h1, h2, h3, dig]

theorem getNucl_lt (t : Nat) (cells : List Nat) (i : Nat) : getNucl t cells i < 4 := by
  rw [getNucl_eq_dig]; exact dig_lt _ _

theorem wf_getD_lt {size_ t : Nat} {cells : List Nat} (h : wf size_ t cells) (j : Nat) :
    cells.getD j 0 < 2 ^ TBits t := by
  rcases Nat.lt_or_ge j cells.length with hj | hj
  · rw [List.getD_eq_getElem _ _ hj]
    exact h.2 _ (List.getElem_mem hj)
  · rw [List.getD_eq_default _ _ hj]
    exact Nat.pos_pow_of_pos _ (by decide)

theorem getD_range_map (f : Nat → Nat) (n p : Nat) :
    ((List.range n).map f).getD p 0 = if p < n then f p else 0 := by
  by_cases h : p < n
  · rw [if_pos h, List.getD_eq_getElem _ _ (by simpa using h)]
    simp
  · rw [if_neg h, List.getD_eq_default]
    simpa using h


/-! Correctness of the packing loop `packRec`. -/

theorem four_pow_le {a b : Nat} (h : a ≤ b) : (4 : Nat) ^ a ≤ 4 ^ b :=
  Nat.pow_le_pow_right (by decide) h

theorem lor_shift_lt {data c s : Nat} (hc : c < 4) (hd : data < 4 ^ s) :
    data ||| c <<< (2 * s) < 4 ^ (s + 1) := by
  have h1 : data < 2 ^ (2 * (s + 1)) := by
    rw [← four_pow_eq]
    exact Nat.lt_of_lt_of_le hd (four_pow_le (Nat.le_succ s))
  have h2 : c <<< (2 * s) < 2 ^ (2 * (s + 1)) := by
    rw [Nat.shiftLeft_eq]
    calc c * 2 ^ (2 * s) < 4 * 2 ^ (2 * s) :=
          (Nat.mul_lt_mul_right (Nat.pos_pow_of_pos _ (by decide))).2 hc
      _ = 2 ^ (2 * s + 2) := by rw [Nat.pow_add]; ring
      _ = 2 ^ (2 * (s + 1)) := by ring_nf
  rw [four_pow_eq]
  exact Nat.or_lt_two_pow h1 h2

theorem dig_lor_shift {data c s : Nat} (hc : c < 4) (hd : data < 4 ^ s) (u : Nat) :
    dig (data ||| c <<< (2 * s)) u = if u < s then dig data u else if u = s then c else 0 := by
  rw [dig_lor]
  rcases Nat.lt_trichotomy u s with h | h | h
  · rw [if_pos h, dig_shiftLeft_lt h, Nat.or_zero]
  · subst h
    rw [if_neg (Nat.lt_irrefl u), if_pos rfl, dig_eq_zero_of_lt hd,
      dig_shiftLeft_ge (Nat.le_refl u), Nat.sub_self, dig_small hc, Nat.zero_or]
  · rw [if_neg (by omega), if_neg (by omega),
      dig_eq_zero_of_lt (Nat.lt_of_lt_of_le hd (four_pow_le (Nat.le_of_lt h))),
      dig_shiftLeft_ge (Nat.le_of_lt h),
      dig_eq_zero_of_lt (Nat.lt_of_lt_of_le hc (by
        have : (4 : Nat) = 4 ^ 1 := by decide
        rw [this]
        exact four_pow_le (by omega))), Nat.or_zero]

theorem lor_shift_lt_TBits {t data c s : Nat} (hc : c < 4) (hd : data < 4 ^ s)
    (hs : s < TNucl t) : data ||| c <<< (2 * s) < 2 ^ TBits t := by
  rw [two_pow_TBits]
  exact Nat.lt_of_lt_of_le (lor_shift_lt hc hd) (four_pow_le hs)

theorem TBits_flush {t s : Nat} : 2 * s + 2 = TBits t ↔ s + 1 = TNucl t := by
  rw [TBits]; omega

theorem packRec_digs (t : Nat) :
    ∀ (codes : List Nat) (data s : Nat), (∀ c ∈ codes, c < 4) → s < TNucl t →
      data < 4 ^ s → ∀ p : Nat,
      dig ((packRec t codes data (2 * s)).getD (p / TNucl t) 0) (p % TNucl t)
        = if p < s then dig data p else codes.getD (p - s) 0 := by
  intro codes
  induction codes with
  | nil =>
    intro data s _ hs hd p
    by_cases hs0 : s = 0
    · subst hs0
      have hd0 : data = 0 := by simpa using hd
      subst hd0
      simp [packRec, dig_zero]
    · have h2s : 2 * s ≠ 0 := by omega
      rw [show packRec t [] data (2 * s) = [data] by simp [packRec, h2s]]
      rcases Nat.lt_or_ge p (TNucl t) with hp | hp
      · rw [Nat.div_eq_of_lt hp, Nat.mod_eq_of_lt hp, List.getD_cons_zero]
        by_cases hps : p < s
        · rw [if_pos hps]
        · rw [if_neg hps, List.getD_nil,
            dig_eq_zero_of_lt (Nat.lt_of_lt_of_le hd (four_pow_le (by omega)))]
      · have h1 : 1 ≤ p / TNucl t := (Nat.one_le_div_iff (TNucl_pos t)).2 hp
        rw [List.getD_eq_default _ _ (by simpa using h1), dig_zero,
          if_neg (by have := TNucl_pos t; omega), List.getD_nil]
  | cons c rest ih =>
    intro data s hc hs hd p
    have hcc : c < 4 := hc c (List.mem_cons_self _ _)
    have hcr : ∀ x ∈ rest, x < 4 := fun x hx => hc x (List.mem_cons_of_mem _ hx)
    have hd2 : data ||| c <<< (2 * s) < 4 ^ (s + 1) := lor_shift_lt hcc hd
    have htr : truncT t (data ||| c <<< (2 * s)) = data ||| c <<< (2 * s) :=
      truncT_eq_of_lt (lor_shift_lt_TBits hcc hd hs)
    by_cases hfl : 2 * s + 2 = TBits t
    · have hsT : s + 1 = TNucl t := TBits_flush.1 hfl
      rw [show packRec t (c :: rest) data (2 * s)
          = truncT t (data ||| c <<< (2 * s)) :: packRec t rest 0 0 by
        simp [packRec, hfl]]
      rw [htr]
      rcases Nat.lt_or_ge p (TNucl t) with hp | hp
      · rw [Nat.div_eq_of_lt hp, Nat.mod_eq_of_lt hp, List.getD_cons_zero,
          dig_lor_shift hcc hd p]
        rcases Nat.lt_trichotomy p s with h | h | h
        · rw [if_pos h, if_pos h]
        · subst h
          rw [if_neg (Nat.lt_irrefl p), if_pos rfl, if_neg (Nat.lt_irrefl p),
            Nat.sub_self, List.getD_cons_zero]
        · omega
      · have hrw : p = p - TNucl t + TNucl t := by omega
        rw [hrw, Nat.add_div_right _ (TNucl_pos t), Nat.add_mod_right, List.getD_cons_succ]
        have hih := ih 0 0 hcr (TNucl_pos t) (by decide) (p - TNucl t)
        rw [show (2 : Nat) * 0 = 0 by decide] at hih
        rw [hih]
        rw [if_neg (by omega), if_neg (by omega),
          show p - TNucl t + TNucl t - s = (p - TNucl t) + 1 by omega,
          List.getD_cons_succ, Nat.sub_zero]
    · have hsT : s + 1 < TNucl t := by
        rcases Nat.lt_or_ge (s + 1) (TNucl t) with h | h
        · exact h
        · exfalso; exact hfl (TBits_flush.2 (by omega))
      rw [show packRec t (c :: rest) data (2 * s)
          = packRec t rest (truncT t (data ||| c <<< (2 * s))) (2 * (s + 1)) by
        simp [packRec, hfl]
        ring_nf]
      rw [htr]
      have hih := ih (data ||| c <<< (2 * s)) (s + 1) hcr hsT hd2 p
      rw [hih]
      rcases Nat.lt_trichotomy p s with h | h | h
      · rw [if_pos (by omega), if_pos h, dig_lor_shift hcc hd, if_pos h]
      · subst h
        rw [if_pos (by omega), if_neg (Nat.lt_irrefl p), dig_lor_shift hcc hd,
          if_neg (Nat.lt_irrefl p), if_pos rfl, Nat.sub_self, List.getD_cons_zero]
      · rw [if_neg (by omega), if_neg (by omega),
          show p - s = (p - (s + 1)) + 1 by omega, List.getD_cons_succ]

theorem packRec_length (t : Nat) :
    ∀ (codes : List Nat) (data s : Nat), s < TNucl t →
      (packRec t codes data (2 * s)).length
        = (s + codes.length + TNucl t - 1) / TNucl t := by
  intro codes
  induction codes with
  | nil =>
    intro data s hs
    by_cases hs0 : s = 0
    · subst hs0
      simp [packRec]
      rw [Nat.div_eq_of_lt (by have := TNucl_pos t; omega)]
    · have h2s : 2 * s ≠ 0 := by omega
      rw [show packRec t [] data (2 * s) = [data] by simp [packRec, h2s]]
      rw [show s + [].length + TNucl t - 1 = (s - 1) + TNucl t by
        have := TNucl_pos t; simp; omega]
      rw [Nat.add_div_right _ (TNucl_pos t), Nat.div_eq_of_lt (by omega)]
      rfl
  | cons c rest ih =>
    intro data s hs
    by_cases hfl : 2 * s + 2 = TBits t
    · have hsT : s + 1 = TNucl t := TBits_flush.1 hfl
      rw [show packRec t (c :: rest) data (2 * s)
          = truncT t (data ||| c <<< (2 * s)) :: packRec t rest 0 0 by
        simp [packRec, hfl]]
      have hihl := ih 0 0 (TNucl_pos t)
      rw [show (2 : Nat) * 0 = 0 from rfl] at hihl
      rw [List.length_cons, hihl]
      have hnum : s + (c :: rest).length + TNucl t - 1
          = (0 + rest.length + TNucl t - 1) + TNucl t := by
        have := TNucl_pos t
        simp only [List.length_cons]
        omega
      rw [hnum, Nat.add_div_right _ (TNucl_pos t)]
    · have hsT : s + 1 < TNucl t := by
        rcases Nat.lt_or_ge (s + 1) (TNucl t) with h | h
        · exact h
        · exfalso; exact hfl (TBits_flush.2 (by omega))
      rw [show packRec t (c :: rest) data (2 * s)
          = packRec t rest (truncT t (data ||| c <<< (2 * s))) (2 * (s + 1)) by
        simp [packRec, hfl]
        ring_nf]
      rw [ih _ (s + 1) hsT]
      congr 1
      simp
      omega

theorem packRec_bound (t : Nat) :
    ∀ (codes : List Nat) (data s : Nat), (∀ c ∈ codes, c < 4) → s < TNucl t →
      data < 4 ^ s → ∀ x ∈ packRec t codes data (2 * s), x < 2 ^ TBits t := by
  intro codes
  induction codes with
  | nil =>
    intro data s _ hs hd x hx
    by_cases hs0 : 2 * s = 0
    · simp [packRec, hs0] at hx
    · rw [show packRec t [] data (2 * s) = [data] by simp [packRec, hs0]] at hx
      rw [List.mem_singleton] at hx
      subst hx
      rw [two_pow_TBits]
      exact Nat.lt_of_lt_of_le hd (four_pow_le (by omega))
  | cons c rest ih =>
    intro data s hc hs hd x hx
    have hcc : c < 4 := hc c (List.mem_cons_self _ _)
    have hcr : ∀ y ∈ rest, y < 4 := fun y hy => hc y (List.mem_cons_of_mem _ hy)
    have hd2 : data ||| c <<< (2 * s) < 4 ^ (s + 1) := lor_shift_lt hcc hd
    have htr : truncT t (data ||| c <<< (2 * s)) = data ||| c <<< (2 * s) :=
      truncT_eq_of_lt (lor_shift_lt_TBits hcc hd hs)
    by_cases hfl : 2 * s + 2 = TBits t
    · rw [show packRec t (c :: rest) data (2 * s)
          = truncT t (data ||| c <<< (2 * s)) :: packRec t rest 0 0 by
        simp [packRec, hfl]] at hx
      rcases List.mem_cons.1 hx with hx | hx
      · subst hx
        rw [htr]
        exact lor_shift_lt_TBits hcc hd hs
      · have := ih 0 0 hcr (TNucl_pos t) (by decide)
        rw [show (2 : Nat) * 0 = 0 by decide] at this
        exact this x hx
    · have hsT : s + 1 < TNucl t := by
        rcases Nat.lt_or_ge (s + 1) (TNucl t) with h | h
        · exact h
        · exfalso; exact hfl (TBits_flush.2 (by omega))
      rw [show packRec t (c :: rest) data (2 * s)
          = packRec t rest (truncT t (data ||| c <<< (2 * s))) (2 * (s + 1)) by
        simp [packRec, hfl]
        ring_nf] at hx
      rw [htr] at hx
      exact ih _ (s + 1) hcr hsT hd2 x hx


/-! Symbol-level characterization of the constructors. -/

theorem dignucl_lt (c : Nat) : dignucl c < 4 := by
  unfold dignucl
  repeat' split
  all_goals decide

theorem getNucl_packRec {t : Nat} {codes : List Nat} (hc : ∀ c ∈ codes, c < 4) (p : Nat) :
    getNucl t (packRec t codes 0 0) p = codes.getD p 0 := by
  rw [getNucl_eq_dig]
  have h := packRec_digs t codes 0 0 hc (TNucl_pos t) (by decide) p
  rw [show (2 : Nat) * 0 = 0 from rfl] at h
  rw [h, if_neg (Nat.not_lt_zero p), Nat.sub_zero]

theorem packRec_wf {size_ t : Nat} {codes : List Nat} (hc : ∀ c ∈ codes, c < 4)
    (hlen : codes.length = size_) : wf size_ t (packRec t codes 0 0) := by
  constructor
  · have h := packRec_length t codes 0 0 (TNucl_pos t)
    rw [show (2 : Nat) * 0 = 0 from rfl] at h
    rw [h, hlen, Nat.zero_add, DataSize_eq_div]
  · have h := packRec_bound t codes 0 0 hc (TNucl_pos t) (by decide)
    rw [show (2 : Nat) * 0 = 0 from rfl] at h
    exact h

theorem init_eq_some {size_ t : Nat} {s : Nat → Nat} {cells : List Nat}
    (h : init size_ t s = some cells) :
    cells = packRec t ((List.range size_).map fun pos => dignucl (s pos)) 0 0
      ∧ s size_ = 0 := by
  unfold init at h
  by_cases h0 : s size_ = 0
  · rw [if_pos h0] at h
    exact ⟨(Option.some.inj h).symm, h0⟩
  · rw [if_neg h0] at h
    exact absurd h (by simp)

theorem init_codes_lt (size_ : Nat) (s : Nat → Nat) :
    ∀ c ∈ (List.range size_).map fun pos => dignucl (s pos), c < 4 := by
  intro c hcmem
  rcases List.mem_map.1 hcmem with ⟨pos, _, hpc⟩
  rw [← hpc]
  exact dignucl_lt _

theorem init_getNucl {size_ t : Nat} {s : Nat → Nat} {cells : List Nat}
    (h : init size_ t s = some cells) (p : Nat) :
    getNucl t cells p = if p < size_ then dignucl (s p) else 0 := by
  rw [(init_eq_some h).1, getNucl_packRec (init_codes_lt size_ s), getD_range_map]

theorem init_wf {size_ t : Nat} {s : Nat → Nat} {cells : List Nat}
    (h : init size_ t s = some cells) : wf size_ t cells := by
  rw [(init_eq_some h).1]
  exact packRec_wf (init_codes_lt size_ s) (by simp)

theorem init_padInv {size_ t : Nat} {s : Nat → Nat} {cells : List Nat}
    (h : init size_ t s = some cells) : padInv size_ t cells := by
  intro p _ hsp
  rw [init_getNucl h, if_neg (by omega)]

theorem getD_replicate_zero (n p : Nat) : (List.replicate n 0).getD p 0 = 0 := by
  rcases Nat.lt_or_ge p n with h | h
  · rw [List.getD_eq_getElem _ _ (by simpa using h), List.getElem_replicate]
  · rw [List.getD_eq_default]
    simpa using h

theorem getD_append_rep (L : List Nat) (k p : Nat) :
    (L ++ List.replicate k 0).getD p 0 = L.getD p 0 := by
  rcases Nat.lt_or_ge p L.length with h | h
  · rw [List.getD_append _ _ _ _ h]
  · rw [List.getD_append_right _ _ _ _ h, List.getD_eq_default _ _ h, getD_replicate_zero]

theorem getNucl_append_rep (t : Nat) (L : List Nat) (k p : Nat) :
    getNucl t (L ++ List.replicate k 0) p = getNucl t L p := by
  unfold getNucl
  rw [getD_append_rep]

theorem seqDefault_getNucl (size_ t p : Nat) : getNucl t (seqDefault size_ t) p = 0 := by
  rw [getNucl_eq_dig, seqDefault, getD_replicate_zero, dig_zero]

theorem seqDefault_padInv (size_ t : Nat) : padInv size_ t (seqDefault size_ t) := by
  intro p _ _
  exact seqDefault_getNucl size_ t p

theorem seqDefault_wf (size_ t : Nat) : wf size_ t (seqDefault size_ t) := by
  constructor
  · exact List.length_replicate _ _
  · intro x hx
    rw [List.eq_of_mem_replicate hx]
    exact Nat.pos_pow_of_pos _ (by decide)

theorem fromIndexable_eq_some {size_ t offset cnt : Nat} {s : Nat → Nat} {cells : List Nat}
    (h : seqFromIndexable size_ t s offset cnt = some cells) :
    cells = packRec t ((List.range cnt).map fun i =>
        if is_dignucl (s 0) then s (offset + i) else dignucl (s (offset + i))) 0 0
      ++ List.replicate (DataSize size_ t - (packRec t ((List.range cnt).map fun i =>
        if is_dignucl (s 0) then s (offset + i) else dignucl (s (offset + i))) 0 0).length) 0 := by
  unfold seqFromIndexable at h
  by_cases h0 : (is_dignucl (s 0) || is_nucl (s 0)) = true
  · rw [if_pos h0] at h
    exact (Option.some.inj h).symm
  · rw [if_neg h0] at h
    exact absurd h (by simp)

theorem fromIndexable_getNucl {size_ t offset cnt : Nat} {s : Nat → Nat} {cells : List Nat}
    (h : seqFromIndexable size_ t s offset cnt = some cells)
    (hcodes : ∀ i < cnt, (if is_dignucl (s 0) then s (offset + i)
      else dignucl (s (offset + i))) < 4) (p : Nat) :
    getNucl t cells p
      = if p < cnt then (if is_dignucl (s 0) then s (offset + p)
          else dignucl (s (offset + p))) else 0 := by
  rw [fromIndexable_eq_some h, getNucl_append_rep, getNucl_packRec, getD_range_map]
  intro c hcmem
  rcases List.mem_map.1 hcmem with ⟨i, hi, hpc⟩
  rw [← hpc]
  exact hcodes i (List.mem_range.1 hi)

theorem fromIndexable_padInv {size_ t offset cnt : Nat} {s : Nat → Nat} {cells : List Nat}
    (h : seqFromIndexable size_ t s offset cnt = some cells) (hcnt : cnt ≤ size_)
    (hcodes : ∀ i < cnt, (if is_dignucl (s 0) then s (offset + i)
      else dignucl (s (offset + i))) < 4) : padInv size_ t cells := by
  intro p _ hsp
  rw [fromIndexable_getNucl h hcodes, if_neg (by omega)]

theorem fromIndexable_wf {size_ t offset cnt : Nat} {s : Nat → Nat} {cells : List Nat}
    (h : seqFromIndexable size_ t s offset cnt = some cells) (hcnt : cnt ≤ size_)
    (hcodes : ∀ i < cnt, (if is_dignucl (s 0) then s (offset + i)
      else dignucl (s (offset + i))) < 4) : wf size_ t cells := by
  have hc : ∀ c ∈ (List.range cnt).map fun i =>
      if is_dignucl (s 0) then s (offset + i) else dignucl (s (offset + i)), c < 4 := by
    intro c hcmem
    rcases List.mem_map.1 hcmem with ⟨i, hi, hpc⟩
    rw [← hpc]
    exact hcodes i (List.mem_range.1 hi)
  have hplen := packRec_length t ((List.range cnt).map fun i =>
    if is_dignucl (s 0) then s (offset + i) else dignucl (s (offset + i))) 0 0 (TNucl_pos t)
  rw [show (2 : Nat) * 0 = 0 from rfl] at hplen
  rw [List.length_map, List.length_range, Nat.zero_add] at hplen
  have hple : (packRec t ((List.range cnt).map fun i =>
      if is_dignucl (s 0) then s (offset + i) else dignucl (s (offset + i))) 0 0).length
      ≤ DataSize size_ t := by
    rw [hplen, DataSize_eq_div]
    exact Nat.div_le_div_right (by omega)
  constructor
  · rw [fromIndexable_eq_some h, List.length_append, List.length_replicate]
    omega
  · intro x hx
    rw [fromIndexable_eq_some h] at hx
    rcases List.mem_append.1 hx with hx | hx
    · have hb := packRec_bound t _ 0 0 hc (TNucl_pos t) (by decide)
      rw [show (2 : Nat) * 0 = 0 from rfl] at hb
      exact hb x hx
    · rw [List.eq_of_mem_replicate hx]
      exact Nat.pos_pow_of_pos _ (by decide)

/-! The pre-packed-buffer constructor. -/

theorem DataSize_zero (t : Nat) : DataSize 0 t = 0 := by
  rw [DataSize_eq_div, Nat.zero_add, Nat.div_eq_of_lt (by have := TNucl_pos t; omega)]

theorem MaskForLastBucket_eq (size_ t : Nat) :
    MaskForLastBucket size_ t = 4 ^ NuclsRemain size_ t - 1 := by
  rw [MaskForLastBucket, Nat.shiftLeft_eq, Nat.shiftLeft_eq, pow_one, Nat.one_mul,
    Nat.mul_comm (NuclsRemain size_ t) 2, ← four_pow_eq]

theorem land_mask_dig_zero {x r s : Nat} (hs : r ≤ s) : dig (x &&& (4 ^ r - 1)) s = 0 := by
  rw [four_pow_eq, Nat.and_pow_two_sub_one_eq_mod]
  apply dig_eq_zero_of_lt
  calc x % 2 ^ (2 * r) < 2 ^ (2 * r) := Nat.mod_lt _ (Nat.pos_pow_of_pos _ (by decide))
    _ = 4 ^ r := (four_pow_eq r).symm
    _ ≤ 4 ^ s := four_pow_le hs

theorem mod_pred {size_ t : Nat} (h : NuclsRemain size_ t ≠ 0) :
    (size_ - 1) % TNucl t = NuclsRemain size_ t - 1 := by
  have hT := TNucl_pos t
  have hmod : size_ % TNucl t ≠ 0 := by rwa [← NuclsRemain_eq_mod]
  rw [NuclsRemain_eq_mod]
  have hq := Nat.div_add_mod size_ (TNucl t)
  have hmlt : size_ % TNucl t < TNucl t := Nat.mod_lt _ (by omega)
  have h1 : size_ - 1 = TNucl t * (size_ / TNucl t) + (size_ % TNucl t - 1) := by omega
  rw [h1, Nat.mul_add_mod, Nat.mod_eq_of_lt (by omega)]

theorem rem_zero_mul {size_ t : Nat} (h : NuclsRemain size_ t = 0) :
    DataSize size_ t * TNucl t = size_ := by
  have hT := TNucl_pos t
  have hmod : size_ % TNucl t = 0 := by rwa [← NuclsRemain_eq_mod]
  have hq := Nat.div_add_mod size_ (TNucl t)
  rw [hmod, Nat.add_zero] at hq
  rw [DataSize_eq_div]
  rw [← hq]
  rw [show TNucl t * (size_ / TNucl t) + TNucl t - 1
      = TNucl t * (size_ / TNucl t) + (TNucl t - 1) by omega]
  rw [Nat.mul_add_div hT, Nat.div_eq_of_lt (show TNucl t - 1 < TNucl t by omega),
    Nat.add_zero, Nat.mul_comm]

theorem fromArray_getD {size_ t junk : Nat} {arr : Nat → Nat} {j : Nat}
    (hj : j < DataSize size_ t) :
    (seqFromArray size_ t junk arr).getD j 0
      = if j < DataSize size_ t - 1 then arr j
        else if NuclsRemain size_ t ≠ 0 then arr j &&& MaskForLastBucket size_ t
        else junk := by
  rw [seqFromArray, getD_range_map, if_pos hj]

theorem fromArray_padInv (size_ t junk : Nat) (arr : Nat → Nat) :
    padInv size_ t (seqFromArray size_ t junk arr) := by
  intro p hp hsp
  rcases Nat.eq_zero_or_pos size_ with h0 | h0
  · rw [h0, DataSize_zero, Nat.zero_mul] at hp
    omega
  by_cases hrem : NuclsRemain size_ t = 0
  · rw [rem_zero_mul hrem] at hp
    omega
  · obtain ⟨hdiv, hslot⟩ := pad_pos_cell h0 hsp hp
    have hlt : DataSize size_ t - 1 < DataSize size_ t := by
      have := DataSize_pos t h0
      omega
    rw [getNucl_eq_dig, hdiv, fromArray_getD hlt, if_neg (Nat.lt_irrefl _), if_pos hrem,
      MaskForLastBucket_eq]
    apply land_mask_dig_zero
    rw [mod_pred hrem] at hslot
    omega


/-! The sliding-window shift operators. -/

theorem is_nucl_of_lt {ch : Nat} (h : ch < 4) : is_nucl ch = false := by
  unfold is_nucl
  simp
  omega

theorem dig_shiftLeft_small {c k s : Nat} (hc : c < 4) :
    dig (c <<< (2 * k)) s = if s = k then c else 0 := by
  rcases Nat.lt_trichotomy s k with h | h | h
  · rw [dig_shiftLeft_lt h, if_neg (by omega)]
  · subst h
    rw [dig_shiftLeft_ge (Nat.le_refl s), Nat.sub_self, dig_small hc, if_pos rfl]
  · rw [dig_shiftLeft_ge (Nat.le_of_lt h), if_neg (by omega),
      dig_eq_zero_of_lt (Nat.lt_of_lt_of_le hc (by
        have h4 : (4 : Nat) = 4 ^ 1 := by decide
        rw [h4]
        exact four_pow_le (by omega)))]

theorem dig_first_slot (x : Nat) : dig x 0 = x &&& 3 := by
  rw [dig, Nat.mul_zero, Nat.shiftRight_zero]

theorem and_three_lt (x : Nat) : x &&& 3 < 4 := by
  rw [show (3 : Nat) = 2 ^ 2 - 1 from rfl, Nat.and_pow_two_sub_one_eq_mod]
  exact Nat.mod_lt _ (by decide)

theorem shiftRight_le (x k : Nat) : x >>> k ≤ x := by
  rw [Nat.shiftRight_eq_div_pow]
  exact Nat.div_le_self _ _

theorem shift_top_lt {t x : Nat} (hx : x < 4) : x <<< (TBits t - 2) < 2 ^ TBits t := by
  have hT : 2 ≤ TBits t := by
    rw [TBits]
    have := TNucl_pos t
    omega
  rw [Nat.shiftLeft_eq]
  calc x * 2 ^ (TBits t - 2) < 4 * 2 ^ (TBits t - 2) :=
        (Nat.mul_lt_mul_right (Nat.pos_pow_of_pos _ (by decide))).2 hx
    _ = 2 ^ (TBits t - 2 + 2) := by rw [Nat.pow_add]; ring
    _ = 2 ^ TBits t := by congr 1; omega

theorem shl_getD {size_ t : Nat} {cells : List Nat} {ch : Nat} (h0 : 0 < size_)
    (hch : is_nucl ch = false) {j : Nat} (hj : j < DataSize size_ t) :
    (shiftLeftOp size_ t cells ch).getD j 0
      = if j = DataSize size_ t - 1 then
          truncT t ((cells.getD j 0 >>> 2)
            ||| ch <<< (((size_ + TNucl t - 1) &&& (TNucl t - 1)) <<< 1))
        else truncT t ((cells.getD j 0 >>> 2)
            ||| (cells.getD (j + 1) 0 &&& 3) <<< (TBits t - 2)) := by
  have hne : DataSize size_ t ≠ 0 := Nat.pos_iff_ne_zero.1 (DataSize_pos t h0)
  unfold shiftLeftOp
  simp only [hch, Bool.false_eq_true, if_false, if_pos hne]
  rw [getD_range_map, if_pos hj]

theorem shl_dig_last {size_ t : Nat} {cells : List Nat} {ch : Nat} (h0 : 0 < size_)
    (hwf : wf size_ t cells) (hch4 : ch < 4) (s : Nat) :
    dig ((shiftLeftOp size_ t cells ch).getD (DataSize size_ t - 1) 0) s
      = dig (cells.getD (DataSize size_ t - 1) 0) (s + 1)
        ||| (if s = (size_ - 1) % TNucl t then ch else 0) := by
  have hlt : DataSize size_ t - 1 < DataSize size_ t := by
    have := DataSize_pos t h0
    omega
  rw [shl_getD h0 (is_nucl_of_lt hch4) hlt, if_pos rfl, lastnuclshift_eq t h0]
  have hmod : (size_ - 1) % TNucl t < TNucl t := Nat.mod_lt _ (TNucl_pos t)
  have hb1 : cells.getD (DataSize size_ t - 1) 0 >>> 2 < 2 ^ TBits t :=
    Nat.lt_of_le_of_lt (shiftRight_le _ _) (wf_getD_lt hwf _)
  have hb2 : ch <<< (2 * ((size_ - 1) % TNucl t)) < 2 ^ TBits t := by
    rw [two_pow_TBits, Nat.shiftLeft_eq, ← four_pow_eq]
    calc ch * 4 ^ ((size_ - 1) % TNucl t) < 4 * 4 ^ ((size_ - 1) % TNucl t) :=
          (Nat.mul_lt_mul_right (Nat.pos_pow_of_pos _ (by decide))).2 hch4
      _ = 4 ^ ((size_ - 1) % TNucl t + 1) := by rw [pow_succ]; ring
      _ ≤ 4 ^ TNucl t := four_pow_le (by omega)
  rw [truncT_eq_of_lt (Nat.or_lt_two_pow hb1 hb2), dig_lor, dig_shiftRight_two,
    dig_shiftLeft_small hch4]

theorem shl_dig_mid {size_ t : Nat} {cells : List Nat} {ch : Nat} (h0 : 0 < size_)
    (hwf : wf size_ t cells) (hch4 : ch < 4) {j : Nat} (hj : j + 1 < DataSize size_ t)
    {s : Nat} :
    dig ((shiftLeftOp size_ t cells ch).getD j 0) s
      = if s = TNucl t - 1 then dig (cells.getD (j + 1) 0) 0
        else dig (cells.getD j 0) (s + 1) := by
  rw [shl_getD h0 (is_nucl_of_lt hch4) (by omega), if_neg (by omega)]
  have hb1 : cells.getD j 0 >>> 2 < 2 ^ TBits t :=
    Nat.lt_of_le_of_lt (shiftRight_le _ _) (wf_getD_lt hwf _)
  have hb2 : (cells.getD (j + 1) 0 &&& 3) <<< (TBits t - 2) < 2 ^ TBits t :=
    shift_top_lt (and_three_lt _)
  have hT2 : TBits t - 2 = 2 * (TNucl t - 1) := by
    rw [TBits]
    have := TNucl_pos t
    omega
  rw [truncT_eq_of_lt (Nat.or_lt_two_pow hb1 hb2), dig_lor, dig_shiftRight_two, hT2,
    dig_shiftLeft_small (and_three_lt _)]
  by_cases hsl : s = TNucl t - 1
  · rw [if_pos hsl, if_pos hsl, ← dig_first_slot]
    have hz : dig (cells.getD j 0) (s + 1) = 0 := by
      apply dig_eq_zero_of_lt
      have := wf_getD_lt hwf j
      rw [two_pow_TBits] at this
      exact Nat.lt_of_lt_of_le this (four_pow_le (by omega))
    rw [hz, Nat.zero_or]
  · rw [if_neg hsl, if_neg hsl, Nat.or_zero]

theorem dig_last_succ_zero {size_ t : Nat} {cells : List Nat} (hwf : wf size_ t cells)
    (hpad : padInv size_ t cells) (h0 : 0 < size_) {u : Nat}
    (hu : (size_ - 1) % TNucl t < u) (huT : u ≤ TNucl t) :
    dig (cells.getD (DataSize size_ t - 1) 0) u = 0 := by
  rcases Nat.eq_or_lt_of_le huT with he | hlt
  · subst he
    apply dig_eq_zero_of_lt
    have := wf_getD_lt hwf (DataSize size_ t - 1)
    rwa [two_pow_TBits] at this
  · have hd := Nat.div_add_mod (size_ - 1) (TNucl t)
    rw [last_cell_eq t h0] at hd
    have hp0 : size_ ≤ TNucl t * (DataSize size_ t - 1) + u := by omega
    have hp1 : TNucl t * (DataSize size_ t - 1) + u < DataSize size_ t * TNucl t := by
      have hds := DataSize_pos t h0
      have hmul : TNucl t * (DataSize size_ t - 1) + TNucl t
          = DataSize size_ t * TNucl t := by
        have h1 : TNucl t * (DataSize size_ t - 1 + 1) = TNucl t * (DataSize size_ t - 1)
            + TNucl t := by ring
        rw [← h1, show DataSize size_ t - 1 + 1 = DataSize size_ t by omega, Nat.mul_comm]
      omega
    have := hpad (TNucl t * (DataSize size_ t - 1) + u) hp1 hp0
    rwa [getNucl_eq_dig, mul_add_div_TNucl t _ _ hlt, mul_add_mod_TNucl t _ _ hlt] at this


theorem getD_set_self {l : List Nat} {i : Nat} (h : i < l.length) (v : Nat) :
    (l.set i v).getD i 0 = v := by
  rw [List.getD_eq_getElem _ _ (by rw [List.length_set]; exact h), List.getElem_set_self]

theorem getD_set_ne {l : List Nat} {i j : Nat} (h : i ≠ j) (v : Nat) :
    (l.set i v).getD j 0 = l.getD j 0 := by
  rcases Nat.lt_or_ge j l.length with hj | hj
  · rw [List.getD_eq_getElem _ _ (by rw [List.length_set]; exact hj),
      List.getD_eq_getElem _ _ hj, List.getElem_set_ne h]
  · rw [List.getD_eq_default _ _ (by rw [List.length_set]; exact hj),
      List.getD_eq_default _ _ hj]

theorem shl_getNucl_last {size_ t : Nat} {cells : List Nat} {ch : Nat}
    (hwf : wf size_ t cells) (hpad : padInv size_ t cells) (hch4 : ch < 4)
    (h0 : 0 < size_) :
    getNucl t (shiftLeftOp size_ t cells ch) (size_ - 1) = ch := by
  rw [getNucl_eq_dig, last_cell_eq t h0, shl_dig_last h0 hwf hch4, if_pos rfl,
    dig_last_succ_zero hwf hpad h0 (Nat.lt_succ_self _)
      (Nat.succ_le_of_lt (Nat.mod_lt _ (TNucl_pos t))), Nat.zero_or]

theorem shl_getNucl_shift_aux {size_ t : Nat} {cells : List Nat} {ch : Nat}
    (hwf : wf size_ t cells) (hch4 : ch < 4) {j s : Nat} (hs : s < TNucl t)
    (hi : TNucl t * j + s + 1 < size_) :
    getNucl t (shiftLeftOp size_ t cells ch) (TNucl t * j + s)
      = getNucl t cells (TNucl t * j + s + 1) := by
  have h0 : 0 < size_ := by omega
  have hTp := TNucl_pos t
  have hjlt : j < DataSize size_ t := by
    apply Nat.lt_of_mul_lt_mul_left
    calc TNucl t * j ≤ TNucl t * j + s := Nat.le_add_right _ _
      _ < size_ := by omega
      _ ≤ DataSize size_ t * TNucl t := size_le_DataSize_mul size_ t
      _ = TNucl t * DataSize size_ t := Nat.mul_comm _ _
  rw [getNucl_eq_dig, mul_add_div_TNucl t _ _ hs, mul_add_mod_TNucl t _ _ hs]
  by_cases hjl : j = DataSize size_ t - 1
  · -- still inside the last cell; the slot is below the last valid slot
    have hdl := Nat.div_add_mod (size_ - 1) (TNucl t)
    rw [last_cell_eq t h0] at hdl
    have hm2 : (size_ - 1) % TNucl t < TNucl t := Nat.mod_lt _ hTp
    subst hjl
    have hslot : s < (size_ - 1) % TNucl t := by omega
    rw [shl_dig_last h0 hwf hch4, if_neg (by omega), Nat.or_zero]
    have hi1 : TNucl t * (DataSize size_ t - 1) + s + 1
        = TNucl t * (DataSize size_ t - 1) + (s + 1) := by omega
    rw [getNucl_eq_dig, hi1, mul_add_div_TNucl t _ _ (by omega),
      mul_add_mod_TNucl t _ _ (by omega)]
  · have hj1 : j + 1 < DataSize size_ t := by omega
    by_cases hsl : s = TNucl t - 1
    · rw [shl_dig_mid h0 hwf hch4 hj1, if_pos hsl]
      have hmul : TNucl t * (j + 1) = TNucl t * j + TNucl t := by ring
      have hi1 : TNucl t * j + s + 1 = TNucl t * (j + 1) + 0 := by omega
      rw [getNucl_eq_dig, hi1, mul_add_div_TNucl t _ _ hTp, mul_add_mod_TNucl t _ _ hTp]
    · rw [shl_dig_mid h0 hwf hch4 hj1, if_neg hsl]
      have hi1 : TNucl t * j + s + 1 = TNucl t * j + (s + 1) := by omega
      rw [getNucl_eq_dig, hi1, mul_add_div_TNucl t _ _ (by omega),
        mul_add_mod_TNucl t _ _ (by omega)]

theorem shl_getNucl_shift {size_ t : Nat} {cells : List Nat} {ch : Nat}
    (hwf : wf size_ t cells) (hch4 : ch < 4) {i : Nat} (hi : i + 1 < size_) :
    getNucl t (shiftLeftOp size_ t cells ch) i = getNucl t cells (i + 1) := by
  have hTp := TNucl_pos t
  have hdm : i = TNucl t * (i / TNucl t) + i % TNucl t := (Nat.div_add_mod i (TNucl t)).symm
  rw [hdm] at hi ⊢
  exact shl_getNucl_shift_aux hwf hch4 (Nat.mod_lt _ hTp) hi

theorem shl_padInv {size_ t : Nat} {cells : List Nat} {ch : Nat}
    (hwf : wf size_ t cells) (hpad : padInv size_ t cells) (hch4 : ch < 4) :
    padInv size_ t (shiftLeftOp size_ t cells ch) := by
  intro p hp hsp
  rcases Nat.eq_zero_or_pos size_ with h0 | h0
  · rw [h0, DataSize_zero, Nat.zero_mul] at hp
    omega
  obtain ⟨hdiv, hslot⟩ := pad_pos_cell h0 hsp hp
  rw [getNucl_eq_dig, hdiv, shl_dig_last h0 hwf hch4, if_neg (by omega), Nat.or_zero]
  exact dig_last_succ_zero hwf hpad h0 (by omega) (by
    have : p % TNucl t < TNucl t := Nat.mod_lt _ (TNucl_pos t)
    omega)

theorem shr_eq_some {size_ t : Nat} {cells : List Nat} {ch : Nat} {res : List Nat}
    (h : shiftRightOp size_ t cells ch = some res) :
    (if is_nucl ch then dignucl ch else ch) < 4
    ∧ res = (if size_ &&& (TNucl t - 1) ≠ 0 then
        ((List.range (DataSize size_ t)).map fun i =>
          truncT t (cells.getD i 0 <<< 2) |||
            (if i = 0 then (if is_nucl ch then dignucl ch else ch)
              else (cells.getD (i - 1) 0 >>> (TBits t - 2)) &&& 3)).set
          (DataSize size_ t - 1)
          (((List.range (DataSize size_ t)).map fun i =>
            truncT t (cells.getD i 0 <<< 2) |||
              (if i = 0 then (if is_nucl ch then dignucl ch else ch)
                else (cells.getD (i - 1) 0 >>> (TBits t - 2)) &&& 3)).getD
            (DataSize size_ t - 1) 0 &&&
            ((1 <<< ((size_ &&& (TNucl t - 1)) <<< 1)) - 1))
      else (List.range (DataSize size_ t)).map fun i =>
        truncT t (cells.getD i 0 <<< 2) |||
          (if i = 0 then (if is_nucl ch then dignucl ch else ch)
            else (cells.getD (i - 1) 0 >>> (TBits t - 2)) &&& 3)) := by
  unfold shiftRightOp at h
  by_cases hd : is_dignucl (if is_nucl ch then dignucl ch else ch) = true
  · rw [if_pos hd] at h
    refine ⟨by simpa [is_dignucl] using hd, ?_⟩
    exact (Option.some.inj h).symm
  · rw [if_neg hd] at h
    exact absurd h (by simp)

theorem shr_padInv {size_ t : Nat} {cells : List Nat} {ch : Nat} {res : List Nat}
    (h : shiftRightOp size_ t cells ch = some res) : padInv size_ t res := by
  intro p hp hsp
  rcases Nat.eq_zero_or_pos size_ with h0 | h0
  · rw [h0, DataSize_zero, Nat.zero_mul] at hp
    omega
  by_cases hrem : NuclsRemain size_ t = 0
  · rw [rem_zero_mul hrem] at hp
    omega
  · obtain ⟨hdiv, hslot⟩ := pad_pos_cell h0 hsp hp
    have hmask : NuclsRemain size_ t ≤ p % TNucl t := by
      rw [mod_pred hrem] at hslot
      omega
    have hrem' : size_ &&& (TNucl t - 1) ≠ 0 := hrem
    rw [(shr_eq_some h).2, if_pos hrem', getNucl_eq_dig, hdiv]
    have hlen : ((List.range (DataSize size_ t)).map fun i =>
        truncT t (cells.getD i 0 <<< 2) |||
          (if i = 0 then (if is_nucl ch then dignucl ch else ch)
            else (cells.getD (i - 1) 0 >>> (TBits t - 2)) &&& 3)).length
        = DataSize size_ t := by
      rw [List.length_map, List.length_range]
    rw [getD_set_self (by rw [hlen]; have := DataSize_pos t h0; omega) _]
    rw [show (1 <<< ((size_ &&& (TNucl t - 1)) <<< 1)) - 1 = MaskForLastBucket size_ t
        from rfl, MaskForLastBucket_eq]
    exact land_mask_dig_zero hmask


/-! Reading and writing single 2-bit groups via the private `set`. -/

theorem and_three_of_lt {x : Nat} (h : x < 4) : x &&& 3 = x := by
  rw [show (3 : Nat) = 2 ^ 2 - 1 from rfl, Nat.and_pow_two_sub_one_eq_mod,
    Nat.mod_eq_of_lt h]

theorem truncT_lt (t x : Nat) : truncT t x < 2 ^ TBits t :=
  Nat.mod_lt _ (Nat.pos_pow_of_pos _ (by decide))

theorem shift_code_lt {t c k : Nat} (hc : c < 4) (hk : k < TNucl t) :
    c <<< (2 * k) < 2 ^ TBits t := by
  rw [two_pow_TBits, Nat.shiftLeft_eq, ← four_pow_eq]
  calc c * 4 ^ k < 4 * 4 ^ k :=
        (Nat.mul_lt_mul_right (Nat.pos_pow_of_pos _ (by decide))).2 hc
    _ = 4 ^ (k + 1) := by rw [pow_succ]; ring
    _ ≤ 4 ^ TNucl t := four_pow_le (by omega)

theorem four_pow_sub_one_div {a b : Nat} (h : b ≤ a) :
    (4 ^ a - 1) / 4 ^ b = 4 ^ (a - b) - 1 := by
  have h1 : (4 : Nat) ^ a = 4 ^ (a - b) * 4 ^ b := by
    rw [← pow_add]
    congr 1
    omega
  have hb : 0 < (4 : Nat) ^ b := Nat.pos_pow_of_pos _ (by decide)
  have hab : 0 < (4 : Nat) ^ (a - b) := Nat.pos_pow_of_pos _ (by decide)
  have h3 : (4 ^ (a - b) - 1) * 4 ^ b = 4 ^ a - 4 ^ b := by
    rw [Nat.sub_mul, Nat.one_mul, ← h1]
  have h4 : (4 : Nat) ^ b ≤ 4 ^ a := four_pow_le h
  have h2 : 4 ^ a - 1 = (4 ^ b - 1) + (4 ^ (a - b) - 1) * 4 ^ b := by omega
  rw [h2, Nat.add_mul_div_right _ _ hb, Nat.div_eq_of_lt (by omega), Nat.zero_add]

theorem dig_allones {t s : Nat} (hs : s < TNucl t) : dig (2 ^ TBits t - 1) s = 3 := by
  rw [dig_eq_div_mod, two_pow_TBits, four_pow_sub_one_div (Nat.le_of_lt hs)]
  have h1 : TNucl t - s = (TNucl t - s - 1) + 1 := by omega
  rw [h1, pow_succ]
  have hp : 0 < (4 : Nat) ^ (TNucl t - s - 1) := Nat.pos_pow_of_pos _ (by decide)
  omega

theorem setNucl_dig {t : Nat} {cells : List Nat} {i c : Nat} (hc : c < 4)
    (hib : i / TNucl t < cells.length)
    (hcb : cells.getD (i / TNucl t) 0 < 2 ^ TBits t) (j s : Nat) (hs : s < TNucl t) :
    dig ((setNucl t cells i c).getD j 0) s
      = if j = i / TNucl t ∧ s = i % TNucl t then c else dig (cells.getD j 0) s := by
  unfold setNucl
  have h1 : i >>> t = i / TNucl t := by rw [Nat.shiftRight_eq_div_pow]; rfl
  have h2 : (i &&& (TNucl t - 1)) <<< 1 = 2 * (i % TNucl t) := by
    rw [TNucl, Nat.and_pow_two_sub_one_eq_mod, Nat.shiftLeft_eq, pow_one, Nat.mul_comm]
  rw [h1, h2]
  by_cases hj : j = i / TNucl t
  · subst hj
    rw [getD_set_self hib]
    have hmod : i % TNucl t < TNucl t := Nat.mod_lt _ (TNucl_pos t)
    have hmask_b : cells.getD (i / TNucl t) 0 &&&
        ((2 ^ TBits t - 1) ^^^ (3 <<< (2 * (i % TNucl t)))) < 2 ^ TBits t :=
      Nat.lt_of_le_of_lt Nat.and_le_left hcb
    have hshift_b : c <<< (2 * (i % TNucl t)) < 2 ^ TBits t := shift_code_lt hc hmod
    rw [truncT_eq_of_lt (Nat.or_lt_two_pow hmask_b hshift_b), dig_lor, dig_land, dig_xor,
      dig_allones hs, dig_shiftLeft_small (show (3 : Nat) < 4 by decide),
      dig_shiftLeft_small hc]
    by_cases hsl : s = i % TNucl t
    · rw [if_pos hsl, if_pos hsl, if_pos ⟨rfl, hsl⟩, Nat.xor_self, Nat.and_zero,
        Nat.zero_or]
    · rw [if_neg hsl, if_neg hsl, if_neg (by tauto), Nat.xor_zero, Nat.or_zero,
        and_three_of_lt (dig_lt _ _)]
  · rw [getD_set_ne (fun he => hj he.symm) _, if_neg (by tauto)]

theorem setNucl_length (t : Nat) (cells : List Nat) (i c : Nat) :
    (setNucl t cells i c).length = cells.length := by
  unfold setNucl
  exact List.length_set _ _ _

theorem setNucl_wf {size_ t : Nat} {cells : List Nat} (hwf : wf size_ t cells)
    (i c : Nat) : wf size_ t (setNucl t cells i c) := by
  constructor
  · rw [setNucl_length]
    exact hwf.1
  · intro x hx
    unfold setNucl at hx
    rcases List.mem_or_eq_of_mem_set hx with hx | hx
    · exact hwf.2 x hx
    · rw [hx]
      exact truncT_lt _ _

theorem setNucl_getNucl {size_ t : Nat} {cells : List Nat} {i c : Nat}
    (hwf : wf size_ t cells) (hc : c < 4) (hi : i < size_) (p : Nat) :
    getNucl t (setNucl t cells i c) p = if p = i then c else getNucl t cells p := by
  have hib : i / TNucl t < cells.length := by
    rw [hwf.1]
    exact div_lt_DataSize hi
  rw [getNucl_eq_dig,
    setNucl_dig hc hib (wf_getD_lt hwf _) _ _ (Nat.mod_lt _ (TNucl_pos t))]
  by_cases hpi : p = i
  · subst hpi
    rw [if_pos ⟨rfl, rfl⟩, if_pos rfl]
  · rw [if_neg ?_, if_neg hpi, getNucl_eq_dig]
    rintro ⟨hdiv, hmod⟩
    apply hpi
    have e1 := Nat.div_add_mod p (TNucl t)
    have e2 := Nat.div_add_mod i (TNucl t)
    rw [hdiv, hmod] at e1
    omega

theorem complement_lt {c : Nat} (h : c < 4) : complement c < 4 := by
  unfold complement
  exact Nat.xor_lt_two_pow (show c < 2 ^ 2 from h) (by decide)


/-! The reverse-complement swap loop. -/

theorem revCompl_step {size_ t : Nat} {st cells : List Nat} {k : Nat}
    (hwf : wf size_ t st) (hk : k + 1 ≤ size_ / 2)
    (hget : ∀ p, p < size_ → getNucl t st p
      = if p < k ∨ size_ - 1 - p < k then complement (getNucl t cells (size_ - 1 - p))
        else getNucl t cells p)
    (hpad : ∀ p, size_ ≤ p → getNucl t st p = getNucl t cells p) :
    wf size_ t (setNucl t (setNucl t st k (complement (getNucl t st (size_ - 1 - k))))
        (size_ - 1 - k) (complement (getNucl t st k)))
    ∧ (∀ p, p < size_ →
        getNucl t (setNucl t (setNucl t st k (complement (getNucl t st (size_ - 1 - k))))
            (size_ - 1 - k) (complement (getNucl t st k))) p
          = if p < k + 1 ∨ size_ - 1 - p < k + 1
            then complement (getNucl t cells (size_ - 1 - p))
            else getNucl t cells p)
    ∧ (∀ p, size_ ≤ p →
        getNucl t (setNucl t (setNucl t st k (complement (getNucl t st (size_ - 1 - k))))
            (size_ - 1 - k) (complement (getNucl t st k))) p = getNucl t cells p) := by
  have hs2 : 2 ≤ size_ := by omega
  have hklt : k < size_ - 1 - k := by omega
  have hkx : k < size_ := by omega
  have hmx : size_ - 1 - k < size_ := by omega
  have hrk : getNucl t st k = getNucl t cells k := by
    rw [hget k hkx, if_neg (by omega)]
  have hrm : getNucl t st (size_ - 1 - k) = getNucl t cells (size_ - 1 - k) := by
    rw [hget _ hmx, if_neg (by omega)]
  have hset : ∀ p, getNucl t (setNucl t
      (setNucl t st k (complement (getNucl t st (size_ - 1 - k))))
      (size_ - 1 - k) (complement (getNucl t st k))) p
      = if p = size_ - 1 - k then complement (getNucl t st k)
        else if p = k then complement (getNucl t st (size_ - 1 - k))
        else getNucl t st p := by
    intro p
    rw [setNucl_getNucl (setNucl_wf hwf _ _) (complement_lt (getNucl_lt _ _ _)) hmx]
    by_cases h1 : p = size_ - 1 - k
    · rw [if_pos h1, if_pos h1]
    · rw [if_neg h1, if_neg h1,
        setNucl_getNucl hwf (complement_lt (getNucl_lt _ _ _)) hkx]
  refine ⟨setNucl_wf (setNucl_wf hwf _ _) _ _, ?_, ?_⟩
  · intro p hp
    rw [hset]
    by_cases h1 : p = size_ - 1 - k
    · rw [if_pos h1, hrk, if_pos (by omega)]
      rw [show size_ - 1 - p = k from by omega]
    · rw [if_neg h1]
      by_cases h2 : p = k
      · rw [if_pos h2, hrm, if_pos (by omega)]
        rw [show size_ - 1 - p = size_ - 1 - k from by rw [h2]]
      · rw [if_neg h2, hget p hp]
        by_cases h3 : p < k ∨ size_ - 1 - p < k
        · rw [if_pos h3, if_pos (by omega)]
        · rw [if_neg h3, if_neg (by omega)]
  · intro p hp
    rw [hset, if_neg (by omega), if_neg (by omega), hpad p hp]

theorem revCompl_fold {size_ t : Nat} {cells : List Nat} (hwf : wf size_ t cells) :
    ∀ k, k ≤ size_ / 2 →
      wf size_ t (List.foldl
        (fun res i =>
          let front := complement (getNucl t res i)
          let e := complement (getNucl t res (size_ - 1 - i))
          setNucl t (setNucl t res i e) (size_ - 1 - i) front) cells (List.range k))
      ∧ (∀ p, p < size_ →
          getNucl t (List.foldl
            (fun res i =>
              let front := complement (getNucl t res i)
              let e := complement (getNucl t res (size_ - 1 - i))
              setNucl t (setNucl t res i e) (size_ - 1 - i) front) cells (List.range k)) p
            = if p < k ∨ size_ - 1 - p < k
              then complement (getNucl t cells (size_ - 1 - p))
              else getNucl t cells p)
      ∧ (∀ p, size_ ≤ p →
          getNucl t (List.foldl
            (fun res i =>
              let front := complement (getNucl t res i)
              let e := complement (getNucl t res (size_ - 1 - i))
              setNucl t (setNucl t res i e) (size_ - 1 - i) front) cells
            (List.range k)) p = getNucl t cells p) := by
  intro k
  induction k with
  | zero =>
    intro _
    simp only [List.range_zero, List.foldl_nil]
    exact ⟨hwf, fun p _ => by rw [if_neg (by omega)], fun p _ => trivial⟩
  | succ k ih =>
    intro hk
    obtain ⟨ihwf, ihget, ihpad⟩ := ih (by omega)
    rw [List.range_succ, List.foldl_append]
    simp only [List.foldl_cons, List.foldl_nil]
    exact revCompl_step ihwf hk ihget ihpad

theorem revCompl_getNucl {size_ t : Nat} {cells : List Nat} (hwf : wf size_ t cells)
    {p : Nat} (hp : p < size_) :
    getNucl t (revCompl size_ t cells) p
      = complement (getNucl t cells (size_ - 1 - p)) := by
  have hsr : size_ >>> 1 = size_ / 2 := by rw [Nat.shiftRight_eq_div_pow, pow_one]
  obtain ⟨hfwf, hfget, hfpad⟩ := revCompl_fold hwf (size_ / 2) (Nat.le_refl _)
  simp only [revCompl]
  rw [hsr, Nat.and_one_is_mod]
  by_cases hodd : size_ % 2 = 1
  · rw [if_pos hodd,
      setNucl_getNucl hfwf (complement_lt (getNucl_lt _ _ _)) (by omega)]
    by_cases hpm : p = size_ / 2
    · rw [if_pos hpm, hfget _ (by omega), if_neg (by omega)]
      subst hpm
      rw [show size_ - 1 - size_ / 2 = size_ / 2 from by omega]
    · rw [if_neg hpm, hfget _ hp, if_pos (by omega)]
  · rw [if_neg hodd, hfget _ hp, if_pos (by omega)]

theorem revCompl_wf {size_ t : Nat} {cells : List Nat} (hwf : wf size_ t cells) :
    wf size_ t (revCompl size_ t cells) := by
  have hsr : size_ >>> 1 = size_ / 2 := by rw [Nat.shiftRight_eq_div_pow, pow_one]
  obtain ⟨hfwf, _, _⟩ := revCompl_fold hwf (size_ / 2) (Nat.le_refl _)
  simp only [revCompl]
  rw [hsr, Nat.and_one_is_mod]
  by_cases hodd : size_ % 2 = 1
  · rw [if_pos hodd]
    exact setNucl_wf hfwf _ _
  · rw [if_neg hodd]
    exact hfwf

theorem revCompl_padInv {size_ t : Nat} {cells : List Nat} (hwf : wf size_ t cells)
    (hpad : padInv size_ t cells) : padInv size_ t (revCompl size_ t cells) := by
  intro p hpDS hsp
  have hsr : size_ >>> 1 = size_ / 2 := by rw [Nat.shiftRight_eq_div_pow, pow_one]
  obtain ⟨hfwf, _, hfpad⟩ := revCompl_fold hwf (size_ / 2) (Nat.le_refl _)
  simp only [revCompl]
  rw [hsr, Nat.and_one_is_mod]
  by_cases hodd : size_ % 2 = 1
  · rw [if_pos hodd,
      setNucl_getNucl hfwf (complement_lt (getNucl_lt _ _ _)) (by omega),
      if_neg (by omega), hfpad p hsp]
    exact hpad p hpDS hsp
  · rw [if_neg hodd, hfpad p hsp]
    exact hpad p hpDS hsp


/-! Two well-formed, properly padded storages with equal symbols are equal. -/

theorem cells_ext {size_ t : Nat} {l r : List Nat} (hwl : wf size_ t l)
    (hwr : wf size_ t r) (hpl : padInv size_ t l) (hpr : padInv size_ t r)
    (h : ∀ i, i < size_ → getNucl t l i = getNucl t r i) : l = r := by
  apply List.ext_getElem (by rw [hwl.1, hwr.1])
  intro j h1 h2
  have hj : j < DataSize size_ t := by rw [← hwl.1]; exact h1
  have hbl : l[j] < 4 ^ TNucl t := by
    rw [← two_pow_TBits]
    exact hwl.2 _ (List.getElem_mem h1)
  have hbr : r[j] < 4 ^ TNucl t := by
    rw [← two_pow_TBits]
    exact hwr.2 _ (List.getElem_mem h2)
  apply eq_of_dig_eq (TNucl t) hbl hbr
  intro s hs
  have hgl : dig l[j] s = getNucl t l (TNucl t * j + s) := by
    rw [getNucl_eq_dig, mul_add_div_TNucl t _ _ hs, mul_add_mod_TNucl t _ _ hs,
      List.getD_eq_getElem _ _ h1]
  have hgr : dig r[j] s = getNucl t r (TNucl t * j + s) := by
    rw [getNucl_eq_dig, mul_add_div_TNucl t _ _ hs, mul_add_mod_TNucl t _ _ hs,
      List.getD_eq_getElem _ _ h2]
  rw [hgl, hgr]
  have hpos : TNucl t * j + s < DataSize size_ t * TNucl t := by
    have hm1 : TNucl t * (j + 1) ≤ TNucl t * DataSize size_ t :=
      Nat.mul_le_mul_left _ (by omega)
    have hexp : TNucl t * (j + 1) = TNucl t * j + TNucl t := by ring
    have hc : TNucl t * DataSize size_ t = DataSize size_ t * TNucl t := Nat.mul_comm _ _
    omega
  by_cases hlt : TNucl t * j + s < size_
  · exact h _ hlt
  · rw [hpl _ hpos (by omega), hpr _ hpos (by omega)]

/-! Byte layout and serialization. -/

theorem sizeofT_eq {t : Nat} (ht : 2 ≤ t) : sizeofT t = 2 ^ (t - 2) := by
  rw [sizeofT, TBits, TNucl, show (2 : Nat) * 2 ^ t = 2 ^ (t + 1) from by
      rw [pow_succ]; ring,
    show (8 : Nat) = 2 ^ 3 from rfl, Nat.pow_div (by omega) (by decide)]
  congr 1

theorem TBits_eq_8_sizeofT {t : Nat} (ht : 2 ≤ t) : TBits t = 8 * sizeofT t := by
  rw [sizeofT_eq ht, TBits, TNucl, show (8 : Nat) = 2 ^ 3 from rfl, ← pow_add,
    show (2 : Nat) * 2 ^ t = 2 ^ (t + 1) from by rw [pow_succ]; ring]
  congr 1
  omega

theorem wordOfBytes_range : ∀ (n : Nat) (w : Nat), w < 2 ^ (8 * n) →
    wordOfBytes ((List.range n).map fun k => w / 256 ^ k % 256) = w := by
  intro n
  induction n with
  | zero =>
    intro w hw
    simp only [List.range_zero, List.map_nil]
    simp only [Nat.mul_zero, pow_zero] at hw
    unfold wordOfBytes
    omega
  | succ n ih =>
    intro w hw
    rw [List.range_succ_eq_map, List.map_cons, List.map_map]
    have hcomp : ((fun k => w / 256 ^ k % 256) ∘ Nat.succ)
        = fun k => (w / 256) / 256 ^ k % 256 := by
      funext k
      simp only [Function.comp]
      rw [Nat.div_div_eq_div_mul, ← pow_succ']
    rw [hcomp]
    show w / 256 ^ 0 % 256 + 256 * wordOfBytes _ = w
    rw [pow_zero, Nat.div_one, ih (w / 256) (by
      apply Nat.div_lt_of_lt_mul
      have he : (2 : Nat) ^ (8 * (n + 1)) = 256 * 2 ^ (8 * n) := by
        rw [show 8 * (n + 1) = 8 + 8 * n from by ring, pow_add]
        norm_num
      omega)]
    exact Nat.mod_add_div w 256

theorem bytesOfWord_length (t w : Nat) : (bytesOfWord t w).length = sizeofT t := by
  rw [bytesOfWord, List.length_map, List.length_range]

theorem wordOfBytes_bytesOfWord {t w : Nat} (ht : 2 ≤ t) (hw : w < 2 ^ TBits t) :
    wordOfBytes (bytesOfWord t w) = w := by
  unfold bytesOfWord
  apply wordOfBytes_range
  rw [← TBits_eq_8_sizeofT ht]
  exact hw

theorem seqBytes_nil (t : Nat) : seqBytes t [] = [] := rfl

theorem seqBytes_cons (t : Nat) (c : Nat) (cs : List Nat) :
    seqBytes t (c :: cs) = bytesOfWord t c ++ seqBytes t cs := by
  unfold seqBytes
  rw [List.flatMap_cons]

theorem seqBytes_length (t : Nat) (cells : List Nat) :
    (seqBytes t cells).length = cells.length * sizeofT t := by
  induction cells with
  | nil => simp [seqBytes_nil]
  | cons c cs ih =>
    rw [seqBytes_cons, List.length_append, bytesOfWord_length, ih, List.length_cons]
    ring

theorem wordsOfBytes_seqBytes {t : Nat} (ht : 2 ≤ t) :
    ∀ (cells extra : List Nat), (∀ x ∈ cells, x < 2 ^ TBits t) →
      wordsOfBytes t (seqBytes t cells ++ extra) cells.length = cells := by
  intro cells
  induction cells with
  | nil =>
    intro extra _
    rw [List.length_nil]
    rfl
  | cons c cs ih =>
    intro extra hb
    unfold wordsOfBytes
    rw [List.length_cons, List.range_succ_eq_map, List.map_cons, List.map_map]
    have hhead : wordOfBytes (((seqBytes t (c :: cs) ++ extra).drop (0 * sizeofT t)).take
        (sizeofT t)) = c := by
      rw [Nat.zero_mul, List.drop_zero, seqBytes_cons, List.append_assoc,
        List.take_left' (bytesOfWord_length t c)]
      exact wordOfBytes_bytesOfWord ht (hb c (List.mem_cons_self _ _))
    have hcomp : ((fun j => wordOfBytes (((seqBytes t (c :: cs) ++ extra).drop
          (j * sizeofT t)).take (sizeofT t))) ∘ Nat.succ)
        = fun j => wordOfBytes (((seqBytes t cs ++ extra).drop (j * sizeofT t)).take
          (sizeofT t)) := by
      funext j
      simp only [Function.comp]
      rw [seqBytes_cons, List.append_assoc,
        show Nat.succ j * sizeofT t = (bytesOfWord t c).length + j * sizeofT t from by
          rw [bytesOfWord_length, Nat.succ_mul]; ring,
        List.drop_append]
    rw [hhead, hcomp]
    have hih := ih extra fun x hx => hb x (List.mem_cons_of_mem _ hx)
    unfold wordsOfBytes at hih
    rw [hih]


theorem seqEqOp_iff_eq {size_ t : Nat} (ht : 2 ≤ t) {l r : List Nat}
    (hwl : wf size_ t l) (hwr : wf size_ t r) : seqEqOp t l r = true ↔ l = r := by
  unfold seqEqOp
  constructor
  · intro h
    have hb : seqBytes t l = seqBytes t r := by simpa using h
    have h1 := wordsOfBytes_seqBytes ht l [] hwl.2
    have h2 := wordsOfBytes_seqBytes ht r [] hwr.2
    rw [List.append_nil] at h1 h2
    have hlen : l.length = r.length := by rw [hwl.1, hwr.1]
    rw [← h1, ← h2, hb, hlen]
  · intro h
    subst h
    simp

/-! The claims. -/

/-- Claim C1, counterexample: as stated the claim is false for the sentinel
construction `GetZero`, which fills the storage (padding included) with the
all-ones bit pattern: at `N = 1` over the byte word type the 2-bit group at
position 1 of the last cell is 3, not 0. -/
theorem C1_counterexample : ¬ padInv 1 2 (GetZero 1 2) := by decide

/-- Claim C1 (amended): for every constructed sequence of length N — via
default construction, construction from a character string (`init`, i.e.
`Seq(const char*)`), the generic indexable-source constructor (with in-range
codes and count ≤ N), construction from a pre-packed buffer, shift-left (on a
well-formed padded input, 2-bit code argument), shift-right, or
reverse-complement (on a well-formed padded input) — every 2-bit group at
logical position ≥ N within the last storage cell is 0.  `GetZero` is excluded:
it deliberately fills the padding with ones. -/
theorem C1_theorem (size_ t : Nat) :
    padInv size_ t (seqDefault size_ t)
    ∧ (∀ s cells, init size_ t s = some cells → padInv size_ t cells)
    ∧ (∀ s cells, seqFromCString size_ t s = some cells → padInv size_ t cells)
    ∧ (∀ s offset cnt cells, seqFromIndexable size_ t s offset cnt = some cells →
        cnt ≤ size_ →
        (∀ i < cnt,
          (if is_dignucl (s 0) then s (offset + i) else dignucl (s (offset + i))) < 4) →
        padInv size_ t cells)
    ∧ (∀ junk arr, padInv size_ t (seqFromArray size_ t junk arr))
    ∧ (∀ cells ch, wf size_ t cells → padInv size_ t cells → ch < 4 →
        padInv size_ t (shiftLeftOp size_ t cells ch))
    ∧ (∀ cells ch res, shiftRightOp size_ t cells ch = some res → padInv size_ t res)
    ∧ (∀ cells, wf size_ t cells → padInv size_ t cells →
        padInv size_ t (revCompl size_ t cells)) := by
  refine ⟨seqDefault_padInv size_ t, ?_, ?_, ?_, ?_, ?_, ?_, ?_⟩
  · exact fun s cells h => init_padInv h
  · exact fun s cells h => init_padInv h
  · exact fun s offset cnt cells h hcnt hcodes => fromIndexable_padInv h hcnt hcodes
  · exact fun junk arr => fromArray_padInv size_ t junk arr
  · exact fun cells ch hwf hpad hch => shl_padInv hwf hpad hch
  · exact fun cells ch res h => shr_padInv h
  · exact fun cells hwf hpad => revCompl_padInv hwf hpad

/-- Claim C1, witness of the amended theorem at `N = 5` over the byte word
type, with the sequence "ACGTT" (cells `[228, 3]`) and concrete inputs for
every construction path. -/
theorem C1_witness :
    padInv 5 2 (seqDefault 5 2)
    ∧ padInv 5 2 [228, 3]
    ∧ padInv 5 2 [14, 0]
    ∧ padInv 5 2 (seqFromArray 5 2 99 fun i => [228, 255].getD i 0)
    ∧ padInv 5 2 (shiftLeftOp 5 2 [228, 3] 1)
    ∧ padInv 5 2 [146, 3]
    ∧ padInv 5 2 (revCompl 5 2 [228, 3]) := by
  have h := C1_theorem 5 2
  refine ⟨h.1, ?_, ?_, ?_, ?_, ?_, ?_⟩
  · exact h.2.2.1 (fun k => [65, 67, 71, 84, 84].getD k 0) [228, 3] (by decide)
  · exact h.2.2.2.1 (fun k => [1, 2, 3, 0, 1, 2, 3].getD k 0) 1 3 [14, 0] (by decide)
      (by decide) (by decide)
  · exact h.2.2.2.2.1 99 fun i => [228, 255].getD i 0
  · exact h.2.2.2.2.2.1 [228, 3] 1 (by decide) (by decide) (by decide)
  · exact h.2.2.2.2.2.2.1 [228, 3] 2 [146, 3] (by decide)
  · exact h.2.2.2.2.2.2.2 [228, 3] (by decide) (by decide)

/-- Claim C2: the pre-packed-buffer constructor is broken when N is a multiple
of the symbols-per-word count (`NuclsRemain = 0`): it copies only cells
`0 .. DataSize-2` and skips the masked write of the last cell, leaving it
uninitialized.  At `N = 4` over the byte word type with the buffer holding
packed "ACGT" (228) and prior cell content 255, the constructed storage is the
junk `[255]` and symbol 0 reads 3, while the buffer's 2-bit group 0 is 0. -/
theorem C2_code_bug :
    NuclsRemain 4 2 = 0
    ∧ seqFromArray 4 2 255 (fun i => [228].getD i 0) = [255]
    ∧ getNucl 2 (seqFromArray 4 2 255 fun i => [228].getD i 0) 0 = 3
    ∧ dig 228 0 = 0 := by decide

/-- Claim C3: for every well-formed, properly padded sequence q of length
N > 0 and every 2-bit code c, `(q << c)[N-1] = c` and `(q << c)[i] = q[i+1]`
for every i < N-1. -/
theorem C3_theorem (size_ t : Nat) (cells : List Nat) (ch : Nat)
    (hwf : wf size_ t cells) (hpad : padInv size_ t cells) (hch : ch < 4)
    (h0 : 0 < size_) :
    getNucl t (shiftLeftOp size_ t cells ch) (size_ - 1) = ch
    ∧ ∀ i, i < size_ - 1 →
        getNucl t (shiftLeftOp size_ t cells ch) i = getNucl t cells (i + 1) :=
  ⟨shl_getNucl_last hwf hpad hch h0,
    fun i hi => shl_getNucl_shift hwf hch (by omega)⟩

/-- Claim C3, witness at `N = 5`, byte words, q = "ACGTT" (`[228, 3]`),
c = 1. -/
theorem C3_witness :
    wf 5 2 [228, 3] ∧ padInv 5 2 [228, 3] ∧ (1 : Nat) < 4 ∧ 0 < 5
    ∧ (getNucl 2 (shiftLeftOp 5 2 [228, 3] 1) (5 - 1) = 1
      ∧ ∀ i, i < 5 - 1 →
          getNucl 2 (shiftLeftOp 5 2 [228, 3] 1) i = getNucl 2 [228, 3] (i + 1)) :=
  ⟨by decide, by decide, by decide, by decide,
    C3_theorem 5 2 [228, 3] 1 (by decide) (by decide) (by decide) (by decide)⟩

/-- Claim C4: for every string of length exactly N over {A,C,G,T} (byte
values, terminator at position N), constructing a sequence from it and
converting back with `str()` returns the original string. -/
theorem C4_theorem (size_ t : Nat) (s : Nat → Nat) (cells : List Nat)
    (hvalid : ∀ i < size_, is_nucl (s i) = true)
    (h : init size_ t s = some cells) :
    str size_ t cells = (List.range size_).map s := by
  unfold str
  apply List.map_congr_left
  intro i hi
  rw [List.mem_range] at hi
  rw [init_getNucl h, if_pos hi]
  have hv := hvalid i hi
  have hv4 : s i = 65 ∨ s i = 67 ∨ s i = 71 ∨ s i = 84 := by
    unfold is_nucl at hv
    simp only [Bool.or_eq_true, decide_eq_true_eq] at hv
    omega
  rcases hv4 with h1 | h1 | h1 | h1 <;> rw [h1] <;> decide

/-- Claim C4, witness: the string "ACGTT" at `N = 5`, byte words, round-trips
through `[228, 3]`. -/
theorem C4_witness :
    (∀ i < 5, is_nucl ((fun k => [65, 67, 71, 84, 84].getD k 0) i) = true)
    ∧ init 5 2 (fun k => [65, 67, 71, 84, 84].getD k 0) = some [228, 3]
    ∧ str 5 2 [228, 3] = (List.range 5).map fun k => [65, 67, 71, 84, 84].getD k 0 :=
  ⟨by decide, by decide,
    C4_theorem 5 2 (fun k => [65, 67, 71, 84, 84].getD k 0) [228, 3] (by decide)
      (by decide)⟩

/-- Claim C5: for every well-formed, properly padded sequence q of length N,
reverse-complement is pointwise correct — `(!q)[i] = complement (q[N-1-i])`
for every i < N — and an involution: `!(!q) == q` under the sequence equality
operator. -/
theorem C5_theorem (size_ t : Nat) (cells : List Nat)
    (hwf : wf size_ t cells) (hpad : padInv size_ t cells) :
    (∀ i, i < size_ → getNucl t (revCompl size_ t cells) i
        = complement (getNucl t cells (size_ - 1 - i)))
    ∧ seqEqOp t (revCompl size_ t (revCompl size_ t cells)) cells = true := by
  constructor
  · intro i hi
    exact revCompl_getNucl hwf hi
  · have hdd : revCompl size_ t (revCompl size_ t cells) = cells := by
      apply cells_ext (revCompl_wf (revCompl_wf hwf)) hwf
        (revCompl_padInv (revCompl_wf hwf) (revCompl_padInv hwf hpad)) hpad
      intro i hi
      rw [revCompl_getNucl (revCompl_wf hwf) hi,
        revCompl_getNucl hwf (show size_ - 1 - i < size_ by omega),
        show size_ - 1 - (size_ - 1 - i) = i from by omega]
      unfold complement
      rw [Nat.xor_assoc, Nat.xor_self, Nat.xor_zero]
    rw [hdd]
    unfold seqEqOp
    simp

/-- Claim C5, witness at `N = 5`, byte words, q = "ACGTT" (`[228, 3]`). -/
theorem C5_witness :
    wf 5 2 [228, 3] ∧ padInv 5 2 [228, 3]
    ∧ ((∀ i, i < 5 → getNucl 2 (revCompl 5 2 [228, 3]) i
        = complement (getNucl 2 [228, 3] (5 - 1 - i)))
      ∧ seqEqOp 2 (revCompl 5 2 (revCompl 5 2 [228, 3])) [228, 3] = true) :=
  ⟨by decide, by decide, C5_theorem 5 2 [228, 3] (by decide) (by decide)⟩

/-- Claim C6: for well-formed, properly padded sequences of the same N and
word type, `operator==` (raw `memcmp` of the storage bytes) holds iff the
storage arrays are identical, iff the decoded sequences agree symbol-wise,
and equality implies equal `GetHash` values. -/
theorem C6_theorem (size_ t : Nat) (l r : List Nat) (ht : 2 ≤ t)
    (hwl : wf size_ t l) (hwr : wf size_ t r)
    (hpl : padInv size_ t l) (hpr : padInv size_ t r) :
    (seqEqOp t l r = true ↔ l = r)
    ∧ (seqEqOp t l r = true ↔ ∀ i, i < size_ → getNucl t l i = getNucl t r i)
    ∧ (seqEqOp t l r = true → GetHash l = GetHash r) := by
  have hiff := seqEqOp_iff_eq ht hwl hwr
  refine ⟨hiff, ⟨?_, ?_⟩, ?_⟩
  · intro h i _
    rw [hiff.1 h]
  · intro h
    exact hiff.2 (cells_ext hwl hwr hpl hpr h)
  · intro h
    rw [hiff.1 h]

/-- Claim C6, witness at `N = 5`, byte words, l = r = "ACGTT" (`[228, 3]`). -/
theorem C6_witness :
    2 ≤ 2 ∧ wf 5 2 [228, 3] ∧ padInv 5 2 [228, 3]
    ∧ ((seqEqOp 2 [228, 3] [228, 3] = true ↔ ([228, 3] : List Nat) = [228, 3])
      ∧ (seqEqOp 2 [228, 3] [228, 3] = true
          ↔ ∀ i, i < 5 → getNucl 2 [228, 3] i = getNucl 2 [228, 3] i)
      ∧ (seqEqOp 2 [228, 3] [228, 3] = true → GetHash [228, 3] = GetHash [228, 3])) :=
  ⟨by decide, by decide, by decide,
    C6_theorem 5 2 [228, 3] [228, 3] (by decide) (by decide) (by decide) (by decide)
      (by decide)⟩

/-- Claim C7: writing a well-formed sequence with `BinWrite` emits exactly
`sizeof(T) * DataSize` bytes and succeeds, and reading those bytes back with
`BinRead` at the same (N, word type) consumes them all and reproduces the
storage array bitwise, overwriting any prior buffer contents. -/
theorem C7_theorem (size_ t : Nat) (cells q0 : List Nat) (ht : 2 ≤ t)
    (hwf : wf size_ t cells) :
    (BinWrite size_ t ⟨[], false⟩ cells).2 = true
    ∧ (BinWrite size_ t ⟨[], false⟩ cells).1.out.length = sizeofT t * DataSize size_ t
    ∧ BinRead size_ t ⟨(BinWrite size_ t ⟨[], false⟩ cells).1.out, false⟩ q0
        = (⟨[], false⟩, cells, true) := by
  have hlen : (seqBytes t cells).length = sizeofT t * DataSize size_ t := by
    rw [seqBytes_length, hwf.1, Nat.mul_comm]
  have hw : BinWrite size_ t ⟨[], false⟩ cells = (⟨seqBytes t cells, false⟩, true) := by
    unfold BinWrite
    rw [if_neg (by simp), List.nil_append]
  rw [hw]
  refine ⟨rfl, hlen, ?_⟩
  unfold BinRead
  rw [if_neg (by simp), if_neg (by rw [hlen]; omega)]
  have hdrop : (seqBytes t cells).drop (sizeofT t * DataSize size_ t) = [] := by
    rw [← hlen]
    exact List.drop_length _
  have hwords : wordsOfBytes t (seqBytes t cells) (DataSize size_ t) = cells := by
    have h1 := wordsOfBytes_seqBytes ht cells [] hwf.2
    rw [List.append_nil, hwf.1] at h1
    exact h1
  rw [hdrop, hwords]

/-- Claim C7, witness at `N = 5`, byte words, q = "ACGTT" (`[228, 3]`), prior
buffer `[7, 7]`. -/
theorem C7_witness :
    2 ≤ 2 ∧ wf 5 2 [228, 3]
    ∧ ((BinWrite 5 2 ⟨[], false⟩ [228, 3]).2 = true
      ∧ (BinWrite 5 2 ⟨[], false⟩ [228, 3]).1.out.length = sizeofT 2 * DataSize 5 2
      ∧ BinRead 5 2 ⟨(BinWrite 5 2 ⟨[], false⟩ [228, 3]).1.out, false⟩ [7, 7]
          = (⟨[], false⟩, [228, 3], true)) :=
  ⟨by decide, by decide, C7_theorem 5 2 [228, 3] [7, 7] (by decide) (by decide)⟩

/-- Claim C8: `BinRead` returns false iff the stream is already failed or
holds fewer than `sizeof(T) * DataSize` bytes, and `BinWrite` returns false
iff the stream reports a write failure; both report failure through the
boolean result (the functions are total — no abort). -/
theorem C8_theorem (size_ t : Nat) (f : IStream) (g : OStream)
    (q cells : List Nat) :
    ((BinRead size_ t f q).2.2 = false
      ↔ (f.failed = true ∨ f.bytes.length < sizeofT t * DataSize size_ t))
    ∧ ((BinWrite size_ t g cells).2 = false ↔ g.failed = true) := by
  constructor
  · unfold BinRead
    by_cases h1 : f.failed = true
    · rw [if_pos h1]
      simp [h1]
    · rw [if_neg h1]
      by_cases h2 : f.bytes.length < sizeofT t * DataSize size_ t
      · rw [if_pos h2]
        simp [h2]
      · rw [if_neg h2]
        simp [h1, h2]
  · unfold BinWrite
    by_cases h1 : g.failed = true
    · rw [if_pos h1]
      simp [h1]
    · rw [if_neg h1]
      simp [h1]

/-- Claim C9: construction from a zero-terminated character string triggers
the fatal assertion iff the byte at position N is not the terminator; every
string of length exactly N over {A,C,G,T} constructs without aborting. -/
theorem C9_theorem (size_ t : Nat) (s : Nat → Nat) :
    (seqFromCString size_ t s = none ↔ s size_ ≠ 0)
    ∧ ((∀ i < size_, is_nucl (s i) = true) → s size_ = 0 →
        ∃ cells, seqFromCString size_ t s = some cells) := by
  constructor
  · unfold seqFromCString init
    by_cases h0 : s size_ = 0
    · rw [if_pos h0]
      simp [h0]
    · rw [if_neg h0]
      simp [h0]
  · intro _ h0
    unfold seqFromCString init
    rw [if_pos h0]
    exact ⟨_, rfl⟩

/-- Claim C9, witness: the string "ACGTT" (terminator at position 5)
constructs successfully at `N = 5`, byte words. -/
theorem C9_witness :
    (∀ i < 5, is_nucl ((fun k => [65, 67, 71, 84, 84].getD k 0) i) = true)
    ∧ (fun k => [65, 67, 71, 84, 84].getD k 0) 5 = 0
    ∧ ∃ cells, seqFromCString 5 2 (fun k => [65, 67, 71, 84, 84].getD k 0)
        = some cells :=
  ⟨by decide, by decide, (C9_theorem 5 2 _).2 (by decide) (by decide)⟩

/-- Claim C10: the nested `hash` functor computes exactly `GetHash`, and the
nested `equal_to` functor computes exactly `operator==`. -/
theorem C10_theorem (t : Nat) (cells l r : List Nat) :
    hashFunctor cells = GetHash cells ∧ equalToFunctor t l r = seqEqOp t l r :=
  ⟨rfl, rfl⟩

end SeqModel
